import Mathlib

/-!
# Verification of the GLiNER PII batch orchestration and redaction engine

A shallow embedding of `src/scripts/gliner_pii.py`.  Cell text is modelled as
`List Char` (Python string slicing `s[:i]`, `s[j:]` becomes `List.take` /
`List.drop`, which share Python's clamping behaviour for out-of-range
indices).  Scores and thresholds are modelled as rationals, JSON cell values
by the inductive `Value`, and the external NER model by a `Classifier`
function indexed by the ordinal of the classify call; a `none` result models
the call raising an exception.  The stderr diagnostics written on a chunk
failure are modelled as the second (`List ℕ`) component of each engine's
result, separate from the protocol response.
-/

namespace GlinerPii

/-- Cell text, modelled as its character sequence. -/
abbrev Str := List Char

/-- A detection span as produced by the classifier: `entity.get("label")`,
`entity.get("score")`, `entity.get("start")`, `entity.get("end")` (the Python
`end` field is called `stop` here because `end` is a Lean keyword). -/
structure Span where
  label : String
  score : ℚ
  start : ℕ
  stop : ℕ
deriving DecidableEq

/-- A JSON cell value: a string, an integer, or `null`. -/
inductive Value where
  | str (s : Str)
  | int (n : Int)
  | null
deriving DecidableEq

/-- Python `str(value)` on a cell value. -/
def Value.toStr : Value → Str
  | .str s => s
  | .int n => (toString n).data
  | .null => "None".data

/-- `not val_str.strip()`: the text is empty or whitespace-only. -/
def isBlank (s : Str) : Bool := s.all Char.isWhitespace

/-- All PII labels supported by the model (`ALL_LABELS` in the source). -/
def ALL_LABELS : List String := [
  "first_name", "last_name", "name", "date_of_birth", "age", "gender",
  "sexuality", "race_ethnicity", "religious_belief", "political_view",
  "occupation", "employment_status", "education_level",
  "email", "phone_number", "street_address", "city", "county", "state",
  "country", "coordinate", "zip_code", "po_box",
  "credit_debit_card", "cvv", "bank_routing_number", "account_number",
  "iban", "swift_bic", "pin", "ssn", "tax_id", "ein",
  "passport_number", "driver_license", "license_plate", "national_id", "voter_id",
  "ipv4", "ipv6", "mac_address", "url", "user_name", "password",
  "device_identifier", "imei", "serial_number", "api_key", "secret_key",
  "medical_record_number", "health_plan_beneficiary_number", "blood_type",
  "biometric_identifier", "health_condition", "medication", "insurance_policy_number",
  "date", "time", "date_time",
  "company_name", "employee_id", "customer_id", "certificate_license_number",
  "vehicle_identifier"]

/-- The replacement text `f"[REDACTED_{label}]"`. -/
def marker (label : String) : Str := ("[REDACTED_" ++ label ++ "]").data

/-- The external classifier.  Argument one is the ordinal of the classify
call (the chunk index), argument two the batch of texts; `none` models the
call raising an exception. -/
abbrev Classifier := ℕ → List Str → Option (List (List Span))

/-- `tasks[i:i+256]` slicing: split a list into chunks of `n` (`n = 256`,
`BATCH_SIZE`).  Structural recursion on a fuel that starts at the list's
length, so that the definition evaluates by kernel reduction. -/
def chunksOfAux (n : ℕ) : ℕ → List α → List (List α)
  | 0, _ => []
  | _ + 1, [] => []
  | fuel + 1, a :: l => ((a :: l).take n) :: chunksOfAux n fuel ((a :: l).drop n)

/-- Split a list into consecutive chunks of size `n`. -/
def chunksOf (n : ℕ) (l : List α) : List (List α) := chunksOfAux n l.length l

/-- `enumerate` with a starting index. -/
def enumFrom (i : ℕ) : List α → List (ℕ × α)
  | [] => []
  | a :: l => (i, a) :: enumFrom (i + 1) l

/-- Python `enumerate`. -/
def enum (l : List α) : List (ℕ × α) := enumFrom 0 l

/-- Lookup in an insertion-ordered string-keyed dictionary, modelled as an
association list. -/
def getA (m : List (String × α)) (k : String) : Option α :=
  match m with
  | [] => none
  | (k', v) :: rest => if k' = k then some v else getA rest k

/-- Left-biased choice on `Option` (used to state dictionary lemmas). -/
def oOr (a b : Option α) : Option α :=
  match a with
  | some x => some x
  | none => b

/-- Code-point lexicographic order on character sequences: Python's string
comparison, used by `sorted` in step 3 of `process_request`. -/
def lexLe : Str → Str → Bool
  | [], _ => true
  | _ :: _, [] => false
  | a :: as, b :: bs =>
    if a.toNat < b.toNat then true
    else if a.toNat = b.toNat then lexLe as bs
    else false

/-- Code-point lexicographic order on strings. -/
def labelLe (a b : String) : Bool := lexLe a.data b.data

/-- Insert a string into an ascending list, before any element it is `≤`. -/
def insertStr (s : String) : List String → List String
  | [] => [s]
  | x :: xs => if labelLe s x then s :: x :: xs else x :: insertStr s xs

/-- Python `sorted` on a list of strings (ascending code-point order). -/
def sortStrings (l : List String) : List String := l.foldr insertStr []

/-- Insert a span into a start-descending list; a span goes after every
already-placed span whose `start` is `≥` its own, which makes the sort
stable, as Python's `sorted(..., key=..., reverse=True)` is. -/
def insertSpanDesc (e : Span) : List Span → List Span
  | [] => [e]
  | x :: xs => if x.start ≤ e.start then e :: x :: xs else x :: insertSpanDesc e xs

/-- `sorted(entities, key=lambda e: e.get("start", 0), reverse=True)`:
stable sort by `start` descending. -/
def sortSpansDesc (l : List Span) : List Span := l.foldr insertSpanDesc []

/-! ## The analyze engine (`process_request`) -/

/-- An analyze request after JSON-field defaulting. -/
structure AnalyzeRequest where
  table : String
  columns : List String
  data : List (List Value)
  threshold : ℚ

/-- A successful analyze response. -/
structure AnalyzeResponse where
  table : String
  results : List (String × List String)
  samples : List (String × Str)
deriving DecidableEq

/-- `str(value) if value is not None else ""` (line 94 of the source). -/
def valStrA (v : Value) : Str :=
  match v with
  | .null => []
  | v => v.toStr

/-- `column_values[i]`: the non-blank textual cell values of column `i`,
rows in declared order, skipping cell indices `≥ num_columns` (lines
89–96). -/
def columnValues (numColumns : ℕ) (data : List (List Value)) (i : ℕ) : List Str :=
  data.flatMap (fun row =>
    match row[i]? with
    | some v => if i < numColumns ∧ isBlank (valStrA v) = false then [valStrA v] else []
    | none => [])

/-- The flat work list of `process_request`: columns in declared order,
rows in declared order within a column (lines 98–101). -/
def analyzeTasks (columns : List String) (data : List (List Value)) : List (String × Str) :=
  (enum columns).flatMap (fun p =>
    (columnValues columns.length data p.1).map (fun v => (p.2, v)))

/-- The mutable aggregation state of `process_request`: the `results` and
`samples` dictionaries. -/
structure AState where
  results : List (String × List String)
  samples : List (String × Str)
deriving DecidableEq

/-- `results[column_name].add(label)`, creating the entry if missing; the
set is modelled as a duplicate-free insertion-ordered list. -/
def addLabel (m : List (String × List String)) (col label : String) :
    List (String × List String) :=
  match m with
  | [] => [(col, [label])]
  | (k, v) :: rest =>
    if k = col then (k, if label ∈ v then v else v ++ [label]) :: rest
    else (k, v) :: addLabel rest col label

/-- `if column_name not in samples: samples[column_name] = text[:50]`. -/
def sampleIfAbsent (m : List (String × Str)) (col : String) (s : Str) :
    List (String × Str) :=
  if (getA m col).isSome then m else m ++ [(col, s)]

/-- Processing of one returned entity (lines 128–140): record the label and,
if none is stored yet, the first 50 characters of the text, provided
`score >= threshold and label in ALL_LABELS`. -/
def entityStep (th : ℚ) (colName : String) (text : Str) (st : AState) (e : Span) : AState :=
  if th ≤ e.score ∧ e.label ∈ ALL_LABELS then
    { results := addLabel st.results colName e.label
      samples := sampleIfAbsent st.samples colName (text.take 50) }
  else st

/-- Processing of one work item together with its returned span list. -/
def processItem (th : ℚ) (st : AState) (p : (String × Str) × List Span) : AState :=
  p.2.foldl (entityStep th p.1.1 p.1.2) st

/-- The shared chunk loop of both engines (lines 113–145 and 188–223): for
each enumerated chunk, call the classifier on the chunk's texts; on an
exception record the chunk index on the diagnostic channel and continue,
otherwise fold the per-item step over the items paired with their span
lists. -/
def engineLoop (c : Classifier) (textOf : τ → Str) (step : σ → τ × List Span → σ)
    (l : List (ℕ × List τ)) (st : σ × List ℕ) : σ × List ℕ :=
  l.foldl (fun acc p =>
    match c p.1 (p.2.map textOf) with
    | none => (acc.1, acc.2 ++ [p.1])
    | some preds => ((p.2.zip preds).foldl step acc.1, acc.2)) st

/-- `process_request` (lines 67–154).  The second component is the list of
chunk indices for which a diagnostic was written to stderr. -/
def process_request (c : Classifier) (req : AnalyzeRequest) :
    AnalyzeResponse × List ℕ :=
  let tasks := analyzeTasks req.columns req.data
  if tasks = [] then ({ table := req.table, results := [], samples := [] }, [])
  else
    let fin := engineLoop c Prod.snd (processItem req.threshold)
      (enum (chunksOf 256 tasks)) (⟨[], []⟩, [])
    ({ table := req.table
       results := fin.1.results.map (fun p => (p.1, sortStrings p.2))
       samples := fin.1.samples }, fin.2)

/-! ## The redact engine (`redact_request`) -/

/-- A redact request after JSON-field defaulting. -/
structure RedactRequest where
  columns : List String
  data : List (List Value)
  threshold : ℚ

/-- A successful redact response. -/
structure RedactResponse where
  data : List (List Value)
deriving DecidableEq

/-- The flat work list of `redact_request` (lines 173–180): rows outer,
cells inner, skipping cell indices `≥ num_columns`, `None` values and
blank textual values. -/
def redactTasks (columns : List String) (data : List (List Value)) :
    List (ℕ × ℕ × Str) :=
  (enum data).flatMap (fun rp =>
    (enum rp.2).filterMap (fun cp =>
      if cp.1 < columns.length ∧ cp.2 ≠ Value.null ∧ isBlank cp.2.toStr = false
      then some (rp.1, cp.1, cp.2.toStr) else none))

/-- One replacement (lines 209–216): splice the marker over `[start:stop)`
when `score >= threshold and start < end`. -/
def applyEntity (th : ℚ) (v : Str) (e : Span) : Str :=
  if th ≤ e.score ∧ e.start < e.stop then
    v.take e.start ++ marker e.label ++ v.drop e.stop
  else v

/-- The per-cell redaction: apply all entities sorted by `start`
descending (lines 207–216). -/
def redactCell (th : ℚ) (v : Str) (entities : List Span) : Str :=
  (sortSpansDesc entities).foldl (applyEntity th) v

/-- Write a cell of the (copied) table; indices produced by the engine are
always in range. -/
def setCell (d : List (List Value)) (ri ci : ℕ) (v : Value) : List (List Value) :=
  match d[ri]? with
  | some row => d.set ri (row.set ci v)
  | none => d

/-- Processing of one work item in the redact loop (lines 200–218): skip
items with no returned spans; otherwise write back the redacted string. -/
def redactItem (th : ℚ) (d : List (List Value)) (p : (ℕ × ℕ × Str) × List Span) :
    List (List Value) :=
  if p.2 = [] then d
  else setCell d p.1.1 p.1.2.1 (Value.str (redactCell th p.1.2.2 p.2))

/-- `redact_request` (lines 157–225).  The second component is the list of
chunk indices for which a diagnostic was written to stderr. -/
def redact_request (c : Classifier) (req : RedactRequest) :
    RedactResponse × List ℕ :=
  if req.data = [] ∨ req.columns = [] then ({ data := req.data }, [])
  else
    let tasks := redactTasks req.columns req.data
    if tasks = [] then ({ data := req.data }, [])
    else
      let fin := engineLoop c (fun t => t.2.2) (redactItem req.threshold)
        (enum (chunksOf 256 tasks)) (req.data, [])
      ({ data := fin.1 }, fin.2)

/-! ## The flattened view of the chunk loop -/

/-- The flattened sequence of (work item, returned span list) pairs, in
processing order; a chunk on which the classifier raised contributes no
pairs. -/
def flatOutcomes (c : Classifier) (textOf : τ → Str) (l : List (ℕ × List τ)) :
    List (τ × List Span) :=
  l.flatMap (fun p =>
    match c p.1 (p.2.map textOf) with
    | none => []
    | some preds => p.2.zip preds)

/-- The per-item outcomes of an analyze request, in processing order. -/
def analyzeOutcomes (c : Classifier) (columns : List String)
    (data : List (List Value)) : List ((String × Str) × List Span) :=
  flatOutcomes c Prod.snd (enum (chunksOf 256 (analyzeTasks columns data)))

/-- The per-item outcomes of a redact request, in processing order. -/
def redactOutcomes (c : Classifier) (columns : List String)
    (data : List (List Value)) : List ((ℕ × ℕ × Str) × List Span) :=
  flatOutcomes c (fun t => t.2.2) (enum (chunksOf 256 (redactTasks columns data)))

theorem engineLoop_fst (c : Classifier) (textOf : τ → Str)
    (step : σ → τ × List Span → σ) :
    ∀ (l : List (ℕ × List τ)) (st : σ × List ℕ),
      (engineLoop c textOf step l st).1 = (flatOutcomes c textOf l).foldl step st.1 := by
  intro l
  induction l with
  | nil => intro st; rfl
  | cons p l ih =>
    intro st
    rcases h : c p.1 (p.2.map textOf) with _ | preds
    · calc (engineLoop c textOf step (p :: l) st).1
          = (engineLoop c textOf step l (st.1, st.2 ++ [p.1])).1 := by
            simp only [engineLoop, List.foldl_cons, h]
        _ = (flatOutcomes c textOf l).foldl step st.1 := ih _
        _ = (flatOutcomes c textOf (p :: l)).foldl step st.1 := by
            simp [flatOutcomes, h]
    · calc (engineLoop c textOf step (p :: l) st).1
          = (engineLoop c textOf step l ((p.2.zip preds).foldl step st.1, st.2)).1 := by
            simp only [engineLoop, List.foldl_cons, h]
        _ = (flatOutcomes c textOf l).foldl step ((p.2.zip preds).foldl step st.1) := ih _
        _ = (flatOutcomes c textOf (p :: l)).foldl step st.1 := by
            simp [flatOutcomes, h, List.foldl_append]

theorem engineLoop_snd (c : Classifier) (textOf : τ → Str)
    (step : σ → τ × List Span → σ) :
    ∀ (l : List (ℕ × List τ)) (st : σ × List ℕ),
      (engineLoop c textOf step l st).2
        = st.2 ++ l.filterMap (fun p =>
            match c p.1 (p.2.map textOf) with
            | none => some p.1
            | some _ => none) := by
  intro l
  induction l with
  | nil => intro st; simp [engineLoop]
  | cons p l ih =>
    intro st
    rcases h : c p.1 (p.2.map textOf) with _ | preds
    · calc (engineLoop c textOf step (p :: l) st).2
          = (engineLoop c textOf step l (st.1, st.2 ++ [p.1])).2 := by
            simp only [engineLoop, List.foldl_cons, h]
        _ = (st.2 ++ [p.1]) ++ l.filterMap _ := ih _
        _ = _ := by simp [h]
    · calc (engineLoop c textOf step (p :: l) st).2
          = (engineLoop c textOf step l ((p.2.zip preds).foldl step st.1, st.2)).2 := by
            simp only [engineLoop, List.foldl_cons, h]
        _ = st.2 ++ l.filterMap _ := ih _
        _ = _ := by simp [h]

/-- A fold whose step ignores items with an empty span list leaves the
state unchanged when every item has an empty span list. -/
theorem foldl_noop_of_empty {σ τ : Type} (step : σ → τ × List Span → σ)
    (hstep : ∀ s t, step s (t, []) = s) :
    ∀ (os : List (τ × List Span)) (s : σ),
      (∀ o ∈ os, o.2 = []) → os.foldl step s = s := by
  intro os
  induction os with
  | nil => intro s _; rfl
  | cons o os ih =>
    intro s h
    have h2 : o.2 = [] := h o (List.mem_cons_self o os)
    have : step s o = s := by
      rw [show o = (o.1, o.2) from rfl, h2]; exact hstep s o.1
    simp only [List.foldl_cons, this]
    exact ih s (fun x hx => h x (List.mem_cons_of_mem o hx))

/-- The classifier stub that returns an empty span list for every text and
never raises. -/
def emptyStub : Classifier := fun _ texts => some (texts.map (fun _ => []))

/-- Every outcome produced by the all-empty classifier stub has an empty
span list. -/
theorem flatOutcomes_empty_stub (textOf : τ → Str) (l : List (ℕ × List τ)) :
    ∀ o ∈ flatOutcomes emptyStub textOf l, o.2 = [] := by
  intro o ho
  rcases List.mem_flatMap.1 ho with ⟨p, _, hmem⟩
  rcases o with ⟨t, es⟩
  have := (List.of_mem_zip hmem).2
  simp only [List.mem_map] at this
  rcases this with ⟨_, _, h⟩
  exact h.symm

/-! ## Dictionary and enumeration lemmas -/

theorem oOr_none (a : Option α) : oOr a none = a := by
  cases a <;> rfl

theorem oOr_assoc (a b c : Option α) : oOr (oOr a b) c = oOr a (oOr b c) := by
  cases a <;> rfl

theorem oOr_some (x : α) (b : Option α) : oOr (some x) b = some x := rfl

theorem getA_append (m₁ m₂ : List (String × α)) (k : String) :
    getA (m₁ ++ m₂) k = oOr (getA m₁ k) (getA m₂ k) := by
  induction m₁ with
  | nil => rfl
  | cons p m₁ ih =>
    rcases p with ⟨k', v⟩
    by_cases h : k' = k <;> simp [getA, h, ih, oOr]

theorem getA_map_vals (f : α → β) (m : List (String × α)) (k : String) :
    getA (m.map (fun p => (p.1, f p.2))) k = (getA m k).map f := by
  induction m with
  | nil => rfl
  | cons p m ih =>
    rcases p with ⟨k', v⟩
    by_cases h : k' = k <;> simp [getA, h, ih]

theorem mem_enumFrom (p : ℕ × α) : ∀ (l : List α) (i : ℕ),
    p ∈ enumFrom i l ↔ i ≤ p.1 ∧ l[p.1 - i]? = some p.2 := by
  intro l
  induction l with
  | nil => intro i; simp [enumFrom]
  | cons a l ih =>
    intro i
    simp only [enumFrom, List.mem_cons, ih (i + 1)]
    constructor
    · rintro (h | ⟨h1, h2⟩)
      · subst h; simp
      · refine ⟨by omega, ?_⟩
        have : p.1 - i = (p.1 - (i + 1)) + 1 := by omega
        rw [this]; simpa using h2
    · rintro ⟨h1, h2⟩
      rcases Nat.eq_or_lt_of_le h1 with h | h
      · left
        rw [← h] at h2
        simp at h2
        rcases p with ⟨p1, p2⟩
        simp at h ⊢
        exact ⟨h.symm, h2.symm⟩
      · right
        refine ⟨by omega, ?_⟩
        have : p.1 - i = (p.1 - (i + 1)) + 1 := by omega
        rw [this] at h2
        simpa using h2

theorem mem_enum (p : ℕ × α) (l : List α) : p ∈ enum l ↔ l[p.1]? = some p.2 := by
  rw [enum, mem_enumFrom]
  simp

theorem enum_mem_of_lt {l : List α} {k : ℕ} (h : k < l.length) :
    (k, l[k]) ∈ enum l := by
  rw [mem_enum]
  exact List.getElem?_eq_getElem h

theorem chunksOfAux_subset (n : ℕ) : ∀ (fuel : ℕ) (l : List α) (b : List α),
    b ∈ chunksOfAux n fuel l → ∀ x ∈ b, x ∈ l := by
  intro fuel
  induction fuel with
  | zero => intro l b hb; simp [chunksOfAux] at hb
  | succ fuel ih =>
    intro l b hb x hx
    cases l with
    | nil => simp [chunksOfAux] at hb
    | cons a l =>
      simp only [chunksOfAux, List.mem_cons] at hb
      rcases hb with hb | hb
      · subst hb; exact List.take_subset n _ hx
      · exact List.drop_subset n _ (ih _ b hb x hx)

theorem chunksOf_subset {n : ℕ} {l b : List α} (hb : b ∈ chunksOf n l) :
    ∀ x ∈ b, x ∈ l := chunksOfAux_subset n l.length l b hb

/-- Every outcome's work item is a member of the task list it was chunked
from. -/
theorem flatOutcomes_task_mem {c : Classifier} {textOf : τ → Str} {tasks : List τ}
    {o : τ × List Span}
    (ho : o ∈ flatOutcomes c textOf (enum (chunksOf 256 tasks))) : o.1 ∈ tasks := by
  rcases List.mem_flatMap.1 ho with ⟨p, hp, hmem⟩
  rcases h : c p.1 (p.2.map textOf) with _ | preds <;> rw [h] at hmem
  · simp at hmem
  · have hb : p.2 ∈ chunksOf 256 tasks := by
      have := (mem_enum p _).1 hp
      exact List.getElem?_mem this
    rcases o with ⟨t, es⟩
    exact chunksOf_subset hb t (List.of_mem_zip hmem).1

/-! ## Sorting lemmas -/

theorem processItem_nil (th : ℚ) (st : AState) (t : String × Str) :
    processItem th st (t, []) = st := rfl

theorem redactItem_nil (th : ℚ) (d : List (List Value)) (t : ℕ × ℕ × Str) :
    redactItem th d (t, []) = d := by simp [redactItem]

theorem lexLe_total : ∀ a b : Str, lexLe a b = true ∨ lexLe b a = true := by
  intro a
  induction a with
  | nil => intro b; left; rfl
  | cons x xs ih =>
    intro b
    cases b with
    | nil => right; rfl
    | cons y ys =>
      simp only [lexLe]
      rcases Nat.lt_trichotomy x.toNat y.toNat with h | h | h
      · left; simp [h]
      · rcases ih ys with h2 | h2
        · left; simp [h, h2]
        · right; simp [h.symm, h2]
      · right; simp [h]

theorem lexLe_trans : ∀ a b c : Str,
    lexLe a b = true → lexLe b c = true → lexLe a c = true := by
  intro a
  induction a with
  | nil => intro b c _ _; rfl
  | cons x xs ih =>
    intro b c hab hbc
    cases b with
    | nil => simp [lexLe] at hab
    | cons y ys =>
      cases c with
      | nil => simp [lexLe] at hbc
      | cons z zs =>
        simp only [lexLe] at hab hbc ⊢
        split_ifs at hab hbc ⊢ with h1 h2 h3 h4 h5 h6 <;>
          first
            | rfl
            | omega
            | (exact ih ys zs hab hbc)

theorem labelLe_total (a b : String) : labelLe a b = true ∨ labelLe b a = true :=
  lexLe_total a.data b.data

theorem labelLe_trans {a b c : String} (h1 : labelLe a b = true)
    (h2 : labelLe b c = true) : labelLe a c = true :=
  lexLe_trans a.data b.data c.data h1 h2

theorem insertStr_perm (s : String) : ∀ l : List String,
    (insertStr s l).Perm (s :: l) := by
  intro l
  induction l with
  | nil => exact List.Perm.refl _
  | cons x xs ih =>
    simp only [insertStr]
    split
    · exact List.Perm.refl _
    · exact (List.Perm.cons x ih).trans (List.Perm.swap s x xs)

theorem sortStrings_perm (l : List String) : (sortStrings l).Perm l := by
  induction l with
  | nil => exact List.Perm.refl _
  | cons x xs ih =>
    exact (insertStr_perm x (sortStrings xs)).trans (List.Perm.cons x ih)

theorem mem_sortStrings {a : String} {l : List String} :
    a ∈ sortStrings l ↔ a ∈ l := (sortStrings_perm l).mem_iff

theorem pairwise_insertStr {s : String} {l : List String}
    (h : l.Pairwise (fun a b => labelLe a b = true)) :
    (insertStr s l).Pairwise (fun a b => labelLe a b = true) := by
  induction l with
  | nil => simp [insertStr]
  | cons x xs ih =>
    rcases List.pairwise_cons.1 h with ⟨hx, hxs⟩
    simp only [insertStr]
    by_cases hsx : labelLe s x = true
    · rw [if_pos hsx]
      refine List.pairwise_cons.2 ⟨?_, h⟩
      intro y hy
      rcases List.mem_cons.1 hy with rfl | hy
      · exact hsx
      · exact labelLe_trans hsx (hx y hy)
    · rw [if_neg hsx]
      refine List.pairwise_cons.2 ⟨?_, ih hxs⟩
      intro y hy
      have : y = s ∨ y ∈ xs := by
        have := (insertStr_perm s xs).mem_iff.1 hy
        simpa using this
      rcases this with hys | hy2
      · rw [hys]
        rcases labelLe_total s x with h' | h'
        · exact absurd h' hsx
        · exact h'
      · exact hx y hy2

theorem sortStrings_sorted (l : List String) :
    (sortStrings l).Pairwise (fun a b => labelLe a b = true) := by
  induction l with
  | nil => simp [sortStrings]
  | cons x xs ih => exact pairwise_insertStr ih

theorem sortStrings_nodup {l : List String} (h : l.Nodup) :
    (sortStrings l).Nodup := (sortStrings_perm l).nodup_iff.2 h

theorem insertSpanDesc_perm (e : Span) : ∀ l : List Span,
    (insertSpanDesc e l).Perm (e :: l) := by
  intro l
  induction l with
  | nil => exact List.Perm.refl _
  | cons x xs ih =>
    simp only [insertSpanDesc]
    split
    · exact List.Perm.refl _
    · exact (List.Perm.cons x ih).trans (List.Perm.swap e x xs)

theorem sortSpansDesc_perm (l : List Span) : (sortSpansDesc l).Perm l := by
  induction l with
  | nil => exact List.Perm.refl _
  | cons x xs ih =>
    exact (insertSpanDesc_perm x (sortSpansDesc xs)).trans (List.Perm.cons x ih)

theorem pairwise_insertSpanDesc {e : Span} {l : List Span}
    (h : l.Pairwise (fun a b => b.start ≤ a.start)) :
    (insertSpanDesc e l).Pairwise (fun a b => b.start ≤ a.start) := by
  induction l with
  | nil => simp [insertSpanDesc]
  | cons x xs ih =>
    rcases List.pairwise_cons.1 h with ⟨hx, hxs⟩
    simp only [insertSpanDesc]
    by_cases hex : x.start ≤ e.start
    · rw [if_pos hex]
      refine List.pairwise_cons.2 ⟨?_, h⟩
      intro y hy
      rcases List.mem_cons.1 hy with rfl | hy
      · exact hex
      · exact le_trans (hx y hy) hex
    · rw [if_neg hex]
      refine List.pairwise_cons.2 ⟨?_, ih hxs⟩
      intro y hy
      have : y = e ∨ y ∈ xs := by
        have := (insertSpanDesc_perm e xs).mem_iff.1 hy
        simpa using this
      rcases this with rfl | hy2
      · omega
      · exact hx y hy2

theorem sortSpansDesc_sorted (l : List Span) :
    (sortSpansDesc l).Pairwise (fun a b => b.start ≤ a.start) := by
  induction l with
  | nil => simp [sortSpansDesc]
  | cons x xs ih => exact pairwise_insertSpanDesc ih

/-! ## Claim C9 -/

/-- C9: if the classifier returns an empty span list for every submitted
text, `analyze` returns empty `results` and `samples` with the echoed table
identifier and `redact` returns the data unchanged; and when either
`columns` or `data` is empty, `redact` returns the input data unchanged for
every classifier whatsoever (the classifier is never invoked). -/
theorem c9_theorem (tbl : String) (columns : List String)
    (data : List (List Value)) (th : ℚ) :
    (process_request emptyStub ⟨tbl, columns, data, th⟩).1
      = { table := tbl, results := [], samples := [] }
    ∧ (redact_request emptyStub ⟨columns, data, th⟩).1 = { data := data }
    ∧ (∀ (c : Classifier) (columns₂ : List String) (data₂ : List (List Value)) (th₂ : ℚ),
        data₂ = [] ∨ columns₂ = [] →
        (redact_request c ⟨columns₂, data₂, th₂⟩).1 = { data := data₂ }) := by
  refine ⟨?_, ?_, ?_⟩
  · by_cases h : analyzeTasks columns data = []
    · simp [process_request, h]
    · have hmain : (engineLoop emptyStub Prod.snd (processItem th)
          (enum (chunksOf 256 (analyzeTasks columns data))) (⟨[], []⟩, [])).1
          = (⟨[], []⟩ : AState) := by
        rw [engineLoop_fst]
        exact foldl_noop_of_empty _ (processItem_nil th) _ _
          (flatOutcomes_empty_stub _ _)
      simp [process_request, h, hmain]
  · by_cases h0 : data = [] ∨ columns = []
    · simp only [redact_request, if_pos h0]
    · by_cases h1 : redactTasks columns data = []
      · simp [redact_request, h0, h1]
      · have hmain : (engineLoop emptyStub (fun t => t.2.2) (redactItem th)
            (enum (chunksOf 256 (redactTasks columns data))) (data, [])).1 = data := by
          rw [engineLoop_fst]
          exact foldl_noop_of_empty _ (redactItem_nil th) _ _
            (flatOutcomes_empty_stub _ _)
        simp [redact_request, h0, h1, hmain]
  · intro c columns₂ data₂ th₂ h
    simp only [redact_request, if_pos h]

/-- Witness for C9 at concrete inputs. -/
theorem c9_witness :
    ((([] : List (List Value)) = [] ∨ (["c"] : List String) = [])
      ∧ (redact_request (fun _ _ => none) ⟨["c"], [], 1⟩).1
          = { data := ([] : List (List Value)) })
    ∧ (process_request emptyStub ⟨"t", ["c"], [[Value.str ['x']]], 1⟩).1
        = { table := "t", results := [], samples := [] }
    ∧ (redact_request emptyStub ⟨["c"], [[Value.str ['x']]], 1⟩).1
        = { data := [[Value.str ['x']]] } :=
  ⟨⟨Or.inl rfl,
    ( c9_theorem "t" ["c"] [] 1).2.2 (fun _ _ => none) ["c"] [] 1 (Or.inl rfl)⟩,
   ( c9_theorem "t" ["c"] [[Value.str ['x']]] 1).1,
   ( c9_theorem "t" ["c"] [[Value.str ['x']]] 1).2.1⟩

/-! ## Claim C5 -/

/-- C5: in both `analyze` and `redact`, a span whose score equals the
configured threshold is included (counted as a detection, respectively
replaced), and a span whose score is strictly below the threshold is
excluded. -/
theorem c5_theorem (th : ℚ) (tbl col : String) (text : Str) (sp : Span)
    (hlab : sp.label ∈ ALL_LABELS) (hrange : sp.start < sp.stop)
    (hblank : isBlank text = false) :
    (sp.score = th →
       (process_request (fun _ _ => some [[sp]])
           ⟨tbl, [col], [[Value.str text]], th⟩).1.results = [(col, [sp.label])]
       ∧ (process_request (fun _ _ => some [[sp]])
           ⟨tbl, [col], [[Value.str text]], th⟩).1.samples = [(col, text.take 50)]
       ∧ (redact_request (fun _ _ => some [[sp]])
           ⟨[col], [[Value.str text]], th⟩).1.data
           = [[Value.str (text.take sp.start ++ marker sp.label ++ text.drop sp.stop)]])
    ∧ (sp.score < th →
       (process_request (fun _ _ => some [[sp]])
           ⟨tbl, [col], [[Value.str text]], th⟩).1.results = []
       ∧ (process_request (fun _ _ => some [[sp]])
           ⟨tbl, [col], [[Value.str text]], th⟩).1.samples = []
       ∧ (redact_request (fun _ _ => some [[sp]])
           ⟨[col], [[Value.str text]], th⟩).1.data = [[Value.str text]]) := by
  have htasks : analyzeTasks [col] [[Value.str text]] = [(col, text)] := by
    simp [analyzeTasks, columnValues, enum, enumFrom, valStrA, Value.toStr, hblank]
  have hrtasks : redactTasks [col] [[Value.str text]] = [(0, 0, text)] := by
    simp [redactTasks, enum, enumFrom, Value.toStr, hblank]
  constructor
  · intro hsc
    have hcond : th ≤ sp.score ∧ sp.label ∈ ALL_LABELS := ⟨le_of_eq hsc.symm, hlab⟩
    refine ⟨?_, ?_, ?_⟩
    · simp [process_request, htasks, chunksOf, chunksOfAux, enum, enumFrom,
        engineLoop, processItem, entityStep, hcond, addLabel, sampleIfAbsent,
        sortStrings, insertStr]
    · simp [process_request, htasks, chunksOf, chunksOfAux, enum, enumFrom,
        engineLoop, processItem, entityStep, hcond, addLabel, sampleIfAbsent, getA]
    · have hacond : th ≤ sp.score ∧ sp.start < sp.stop := ⟨le_of_eq hsc.symm, hrange⟩
      simp [redact_request, hrtasks, chunksOf, chunksOfAux, enum, enumFrom,
        engineLoop, redactItem, redactCell, sortSpansDesc, insertSpanDesc,
        applyEntity, hacond, setCell]
  · intro hsc
    have hcond : ¬ (th ≤ sp.score ∧ sp.label ∈ ALL_LABELS) := by
      rintro ⟨h, -⟩; exact absurd hsc (not_lt.2 h)
    refine ⟨?_, ?_, ?_⟩
    · simp [process_request, htasks, chunksOf, chunksOfAux, enum, enumFrom,
        engineLoop, processItem, entityStep, hcond]
    · simp [process_request, htasks, chunksOf, chunksOfAux, enum, enumFrom,
        engineLoop, processItem, entityStep, hcond]
    · have hacond : ¬ (th ≤ sp.score ∧ sp.start < sp.stop) := by
        rintro ⟨h, -⟩; exact absurd hsc (not_lt.2 h)
      simp [redact_request, hrtasks, chunksOf, chunksOfAux, enum, enumFrom,
        engineLoop, redactItem, redactCell, sortSpansDesc, insertSpanDesc,
        applyEntity, hacond, setCell]

/-- Witness for C5: a span at exactly the threshold on `"abc"`, then the
theorem applied with both score cases exercised. -/
theorem c5_witness :
    ((⟨"email", 1, 0, 2⟩ : Span).label ∈ ALL_LABELS
      ∧ (⟨"email", 1, 0, 2⟩ : Span).start < (⟨"email", 1, 0, 2⟩ : Span).stop
      ∧ isBlank "abc".data = false)
    ∧ (process_request (fun _ _ => some [[⟨"email", 1, 0, 2⟩]])
        ⟨"t", ["c"], [[Value.str "abc".data]], 1⟩).1.results = [("c", ["email"])]
    ∧ (redact_request (fun _ _ => some [[⟨"email", 1, 0, 2⟩]])
        ⟨["c"], [[Value.str "abc".data]], 1⟩).1.data
        = [[Value.str ("[REDACTED_email]c".data)]]
    ∧ (process_request (fun _ _ => some [[⟨"email", 0, 0, 2⟩]])
        ⟨"t", ["c"], [[Value.str "abc".data]], 1⟩).1.results = [] := by
  have h1 := (c5_theorem 1 "t" "c" "abc".data ⟨"email", 1, 0, 2⟩
    (by decide) (by decide) (by decide)).1 rfl
  have h2 := (c5_theorem 1 "t" "c" "abc".data ⟨"email", 0, 0, 2⟩
    (by decide) (by decide) (by decide)).2 (by norm_num)
  exact ⟨by decide, h1.1, by rw [h1.2.2]; decide, h2.1⟩

/-! ## Aggregation-state invariants of the analyze loop -/

/-- The detection test of line 132: `score >= threshold and label in
ALL_LABELS`. -/
def spanTriggers (th : ℚ) (e : Span) : Bool :=
  decide (th ≤ e.score) && decide (e.label ∈ ALL_LABELS)

theorem spanTriggers_iff {th : ℚ} {e : Span} :
    spanTriggers th e = true ↔ th ≤ e.score ∧ e.label ∈ ALL_LABELS := by
  simp [spanTriggers]

theorem entityStep_of_trig {th : ℚ} {e : Span} (colName : String) (text : Str)
    (st : AState) (h : spanTriggers th e = true) :
    entityStep th colName text st e
      = { results := addLabel st.results colName e.label
          samples := sampleIfAbsent st.samples colName (text.take 50) } := by
  rw [entityStep, if_pos (spanTriggers_iff.1 h)]

theorem entityStep_of_not_trig {th : ℚ} {e : Span} (colName : String) (text : Str)
    (st : AState) (h : spanTriggers th e = false) :
    entityStep th colName text st e = st := by
  rw [entityStep, if_neg]
  intro hc
  rw [spanTriggers_iff.2 hc] at h
  exact absurd h (by decide)

/-- `l` is one of the labels stored for key `k`. -/
def memLabel (m : List (String × List String)) (k l : String) : Prop :=
  ∃ L, getA m k = some L ∧ l ∈ L

theorem getA_addLabel_self (m : List (String × List String)) (col label : String) :
    getA (addLabel m col label) col
      = some (match getA m col with
              | none => [label]
              | some L => if label ∈ L then L else L ++ [label]) := by
  induction m with
  | nil => simp [addLabel, getA]
  | cons p rest ih =>
    rcases p with ⟨k, v⟩
    by_cases hk : k = col
    · subst hk
      simp [addLabel, getA]
    · simp [addLabel, getA, hk, ih]

theorem getA_addLabel_ne (m : List (String × List String)) {col k : String}
    (label : String) (h : k ≠ col) :
    getA (addLabel m col label) k = getA m k := by
  induction m with
  | nil =>
    simp only [addLabel, getA]
    rw [if_neg (fun hc : col = k => h hc.symm)]
  | cons p rest ih =>
    rcases p with ⟨k', v⟩
    by_cases hk : k' = col
    · subst hk
      have hne : ¬ (k' = k) := fun hc => h hc.symm
      simp [addLabel, getA, hne]
    · simp only [addLabel, if_neg hk, getA]
      by_cases hk2 : k' = k
      · simp [hk2]
      · simp [hk2, ih]

theorem isSome_getA_addLabel {m : List (String × List String)} {k : String}
    (col label : String) (h : (getA m k).isSome) :
    (getA (addLabel m col label) k).isSome := by
  by_cases hk : k = col
  · subst hk; rw [getA_addLabel_self]; rfl
  · rw [getA_addLabel_ne m label hk]; exact h

theorem isSome_getA_addLabel_self (m : List (String × List String))
    (col label : String) : (getA (addLabel m col label) col).isSome := by
  rw [getA_addLabel_self]; rfl

theorem memLabel_iff {m : List (String × List String)} {k l : String}
    {L : List String} (h : getA m k = some L) : memLabel m k l ↔ l ∈ L := by
  simp [memLabel, h]

theorem memLabel_addLabel {m : List (String × List String)} {col label k l : String} :
    memLabel (addLabel m col label) k l ↔ memLabel m k l ∨ (k = col ∧ l = label) := by
  by_cases hk : k = col
  · subst hk
    have hself := getA_addLabel_self m k label
    rcases h : getA m k with _ | L
    · simp only [h] at hself
      rw [memLabel_iff hself]
      simp [memLabel, h]
    · simp only [h] at hself
      by_cases hmem : label ∈ L
      · rw [if_pos hmem] at hself
        rw [memLabel_iff hself, memLabel_iff h]
        constructor
        · exact fun hl => Or.inl hl
        · rintro (hl | ⟨-, hl⟩)
          · exact hl
          · exact hl ▸ hmem
      · rw [if_neg hmem] at hself
        rw [memLabel_iff hself, memLabel_iff h]
        simp [List.mem_append]
  · unfold memLabel
    rw [getA_addLabel_ne m label hk]
    simp [hk]

theorem nodup_addLabel {m : List (String × List String)} (col label : String)
    (h : ∀ k L, getA m k = some L → L.Nodup) :
    ∀ k L, getA (addLabel m col label) k = some L → L.Nodup := by
  intro k L hL
  by_cases hk : k = col
  · subst hk
    rw [getA_addLabel_self] at hL
    rcases hm : getA m k with _ | L₀
    · rw [hm] at hL
      simp only [Option.some.injEq] at hL
      simp [← hL]
    · rw [hm] at hL
      have hn := h k L₀ hm
      by_cases hmem : label ∈ L₀
      · simp only [if_pos hmem, Option.some.injEq] at hL
        rwa [← hL]
      · simp only [if_neg hmem, Option.some.injEq] at hL
        rw [← hL]
        refine List.Nodup.append hn (by simp) ?_
        simp [List.disjoint_singleton]
        exact hmem
  · rw [getA_addLabel_ne m label hk] at hL
    exact h k L hL

theorem isSome_getA_addLabel_iff (m : List (String × List String))
    (col label k : String) :
    (getA (addLabel m col label) k).isSome = true
      ↔ (getA m k).isSome = true ∨ k = col := by
  by_cases hk : k = col
  · subst hk
    simp [isSome_getA_addLabel_self]
  · rw [getA_addLabel_ne m label hk]
    simp [hk]

theorem getA_sampleIfAbsent (m : List (String × Str)) (col : String) (s : Str)
    (k : String) :
    getA (sampleIfAbsent m col s) k
      = oOr (getA m k) (if col = k ∧ getA m col = none then some s else none) := by
  by_cases hck : col = k
  · subst hck
    rcases h : getA m col with _ | v
    · rw [sampleIfAbsent, h]
      simp only [Option.isSome_none, Bool.false_eq_true, if_false]
      rw [getA_append, h]
      simp [getA, oOr]
    · rw [sampleIfAbsent, h]
      simp [h, oOr]
  · rcases h : getA m col with _ | v
    · rw [sampleIfAbsent, h]
      simp only [Option.isSome_none, Bool.false_eq_true, if_false]
      rw [getA_append]
      simp [getA, hck, oOr_none, fun hc : col = k => hck hc]
    · rw [sampleIfAbsent, h]
      simp [hck, oOr_none]

theorem isSome_oMap (f : α → β) (x : Option α) :
    (Option.map f x).isSome = x.isSome := by
  cases x <;> rfl

theorem isSome_oOr (a b : Option α) :
    (oOr a b).isSome = true ↔ a.isSome = true ∨ b.isSome = true := by
  cases a <;> simp [oOr]

/-- Effect of the per-entity fold on the `samples` dictionary: an existing
entry is never overwritten, and a new entry for the item's column appears
iff some entity of the item triggers. -/
theorem entFold_samples (th : ℚ) (colName : String) (text : Str) :
    ∀ (es : List Span) (st : AState) (k : String),
      getA ((es.foldl (entityStep th colName text) st).samples) k
        = oOr (getA st.samples k)
            (if colName = k ∧ es.any (spanTriggers th) = true
             then some (text.take 50) else none) := by
  intro es
  induction es with
  | nil =>
    intro st k
    simp [oOr_none]
  | cons e es ih =>
    intro st k
    cases htrig : spanTriggers th e with
    | false =>
      rw [List.foldl_cons, entityStep_of_not_trig _ _ _ htrig, ih]
      simp [List.any_cons, htrig]
    | true =>
      rw [List.foldl_cons, entityStep_of_trig _ _ _ htrig, ih]
      show oOr (getA (sampleIfAbsent st.samples colName (text.take 50)) k) _ = _
      rw [getA_sampleIfAbsent]
      by_cases hck : colName = k
      · rcases hs : getA st.samples k with _ | v
        · have hs' : getA st.samples colName = none := by rw [hck]; exact hs
          simp [hs, hs', hck, htrig, oOr]
        · have hs' : getA st.samples colName = some v := by rw [hck]; exact hs
          simp [hs, hs', hck, oOr]
      · simp [hck, oOr_none]

/-- Effect of the per-entity fold on membership in the `results`
dictionary. -/
theorem entFold_memLabel (th : ℚ) (colName : String) (text : Str) :
    ∀ (es : List Span) (st : AState) (k l : String),
      memLabel ((es.foldl (entityStep th colName text) st).results) k l
        ↔ memLabel st.results k l
          ∨ (k = colName ∧ ∃ e ∈ es, spanTriggers th e = true ∧ e.label = l) := by
  intro es
  induction es with
  | nil =>
    intro st k l
    simp
  | cons e es ih =>
    intro st k l
    cases htrig : spanTriggers th e with
    | false =>
      rw [List.foldl_cons, entityStep_of_not_trig _ _ _ htrig, ih]
      constructor
      · rintro (hm | ⟨hk, e', he', ht', hl'⟩)
        · exact Or.inl hm
        · exact Or.inr ⟨hk, e', List.mem_cons_of_mem e he', ht', hl'⟩
      · rintro (hm | ⟨hk, e', he', ht', hl'⟩)
        · exact Or.inl hm
        · rcases List.mem_cons.1 he' with rfl | he2
          · rw [htrig] at ht'
            exact absurd ht' (by decide)
          · exact Or.inr ⟨hk, e', he2, ht', hl'⟩
    | true =>
      rw [List.foldl_cons, entityStep_of_trig _ _ _ htrig, ih]
      show memLabel (addLabel st.results colName e.label) k l
          ∨ (k = colName ∧ ∃ e' ∈ es, spanTriggers th e' = true ∧ e'.label = l) ↔ _
      rw [memLabel_addLabel]
      constructor
      · rintro ((hm | ⟨hk, hl⟩) | ⟨hk, e', he', ht', hl'⟩)
        · exact Or.inl hm
        · exact Or.inr ⟨hk, e, List.mem_cons_self e es, htrig, hl.symm⟩
        · exact Or.inr ⟨hk, e', List.mem_cons_of_mem e he', ht', hl'⟩
      · rintro (hm | ⟨hk, e', he', ht', hl'⟩)
        · exact Or.inl (Or.inl hm)
        · rcases List.mem_cons.1 he' with rfl | he2
          · exact Or.inl (Or.inr ⟨hk, hl'.symm⟩)
          · exact Or.inr ⟨hk, e', he2, ht', hl'⟩

/-- Effect of the per-entity fold on key presence in `results`. -/
theorem entFold_keys (th : ℚ) (colName : String) (text : Str) :
    ∀ (es : List Span) (st : AState) (k : String),
      (getA ((es.foldl (entityStep th colName text) st).results) k).isSome = true
        ↔ (getA st.results k).isSome = true
          ∨ (k = colName ∧ ∃ e ∈ es, spanTriggers th e = true) := by
  intro es
  induction es with
  | nil =>
    intro st k
    simp
  | cons e es ih =>
    intro st k
    cases htrig : spanTriggers th e with
    | false =>
      rw [List.foldl_cons, entityStep_of_not_trig _ _ _ htrig, ih]
      constructor
      · rintro (hm | ⟨hk, e', he', ht'⟩)
        · exact Or.inl hm
        · exact Or.inr ⟨hk, e', List.mem_cons_of_mem e he', ht'⟩
      · rintro (hm | ⟨hk, e', he', ht'⟩)
        · exact Or.inl hm
        · rcases List.mem_cons.1 he' with rfl | he2
          · rw [htrig] at ht'
            exact absurd ht' (by decide)
          · exact Or.inr ⟨hk, e', he2, ht'⟩
    | true =>
      rw [List.foldl_cons, entityStep_of_trig _ _ _ htrig, ih]
      show (getA (addLabel st.results colName e.label) k).isSome = true ∨ _ ↔ _
      rw [isSome_getA_addLabel_iff]
      constructor
      · rintro ((hm | hk) | ⟨hk, e', he', ht'⟩)
        · exact Or.inl hm
        · exact Or.inr ⟨hk, e, List.mem_cons_self e es, htrig⟩
        · exact Or.inr ⟨hk, e', List.mem_cons_of_mem e he', ht'⟩
      · rintro (hm | ⟨hk, e', he', ht'⟩)
        · exact Or.inl (Or.inl hm)
        · exact Or.inl (Or.inr hk)

/-- The per-entity fold keeps every stored label list duplicate-free. -/
theorem entFold_nodup (th : ℚ) (colName : String) (text : Str) :
    ∀ (es : List Span) (st : AState),
      (∀ k L, getA st.results k = some L → L.Nodup) →
      ∀ k L, getA ((es.foldl (entityStep th colName text) st).results) k = some L →
        L.Nodup := by
  intro es
  induction es with
  | nil => intro st h; exact h
  | cons e es ih =>
    intro st h
    cases htrig : spanTriggers th e with
    | false =>
      rw [List.foldl_cons, entityStep_of_not_trig _ _ _ htrig]
      exact ih st h
    | true =>
      rw [List.foldl_cons, entityStep_of_trig _ _ _ htrig]
      exact ih _ (nodup_addLabel colName e.label h)

/-- The per-entity fold preserves the invariant that every column with a
stored sample also has a stored result entry. -/
theorem entFold_subset (th : ℚ) (colName : String) (text : Str) :
    ∀ (es : List Span) (st : AState),
      (∀ k, (getA st.samples k).isSome = true → (getA st.results k).isSome = true) →
      ∀ k, (getA ((es.foldl (entityStep th colName text) st).samples) k).isSome = true →
        (getA ((es.foldl (entityStep th colName text) st).results) k).isSome = true := by
  intro es
  induction es with
  | nil => intro st h; exact h
  | cons e es ih =>
    intro st h
    cases htrig : spanTriggers th e with
    | false =>
      rw [List.foldl_cons, entityStep_of_not_trig _ _ _ htrig]
      exact ih st h
    | true =>
      rw [List.foldl_cons, entityStep_of_trig _ _ _ htrig]
      refine ih _ ?_
      intro k hk
      show (getA (addLabel st.results colName e.label) k).isSome = true
      rw [isSome_getA_addLabel_iff]
      have hk2 : (getA (sampleIfAbsent st.samples colName (text.take 50)) k).isSome
          = true := hk
      rw [getA_sampleIfAbsent, isSome_oOr] at hk2
      rcases hk2 with hk2 | hk2
      · exact Or.inl (h k hk2)
      · by_cases hck : colName = k
        · exact Or.inr hck.symm
        · rw [if_neg (fun hc => hck hc.1)] at hk2
          exact absurd hk2 (by decide)

/-- An analyze outcome (work item plus returned span list) counts as a
detection for key `k` when its column is `k` and some returned span passes
the line-132 test. -/
def outcomeHits (th : ℚ) (k : String) (o : (String × Str) × List Span) : Bool :=
  decide (o.1.1 = k) && o.2.any (spanTriggers th)

/-- Effect of the item fold on the `samples` dictionary: the stored sample
for `k` is the (50-character-truncated) text of the first outcome that hits
`k`, unless a sample was already stored. -/
theorem itemFold_samples (th : ℚ) :
    ∀ (os : List ((String × Str) × List Span)) (st : AState) (k : String),
      getA ((os.foldl (processItem th) st).samples) k
        = oOr (getA st.samples k)
            (((os.filter (outcomeHits th k)).head?).map (fun o => o.1.2.take 50)) := by
  intro os
  induction os with
  | nil => intro st k; simp [oOr_none]
  | cons o os ih =>
    intro st k
    rw [List.foldl_cons, ih]
    have hstep : getA (processItem th st o).samples k
        = oOr (getA st.samples k)
            (if o.1.1 = k ∧ o.2.any (spanTriggers th) = true
             then some (o.1.2.take 50) else none) :=
      entFold_samples th o.1.1 o.1.2 o.2 st k
    rw [hstep, oOr_assoc]
    cases hhit : outcomeHits th k o with
    | false =>
      have hcond : ¬ (o.1.1 = k ∧ o.2.any (spanTriggers th) = true) := by
        intro hc
        simp only [outcomeHits, hc.1, hc.2] at hhit
        simp at hhit
      rw [if_neg hcond]
      simp [List.filter_cons, hhit, oOr]
    | true =>
      have hcond : o.1.1 = k ∧ o.2.any (spanTriggers th) = true := by
        rw [outcomeHits, Bool.and_eq_true] at hhit
        exact ⟨of_decide_eq_true hhit.1, hhit.2⟩
      rw [if_pos hcond]
      simp [List.filter_cons, hhit, oOr]

/-- Effect of the item fold on membership in the `results` dictionary. -/
theorem itemFold_memLabel (th : ℚ) :
    ∀ (os : List ((String × Str) × List Span)) (st : AState) (k l : String),
      memLabel ((os.foldl (processItem th) st).results) k l
        ↔ memLabel st.results k l
          ∨ ∃ o ∈ os, o.1.1 = k ∧ ∃ e ∈ o.2, spanTriggers th e = true ∧ e.label = l := by
  intro os
  induction os with
  | nil => intro st k l; simp
  | cons o os ih =>
    intro st k l
    rw [List.foldl_cons, ih]
    have hstep := entFold_memLabel th o.1.1 o.1.2 o.2 st k l
    rw [show processItem th st o = o.2.foldl (entityStep th o.1.1 o.1.2) st from rfl,
      hstep]
    constructor
    · rintro ((hm | ⟨hk, he⟩) | ⟨o', ho', hk', he'⟩)
      · exact Or.inl hm
      · exact Or.inr ⟨o, List.mem_cons_self o os, hk.symm, he⟩
      · exact Or.inr ⟨o', List.mem_cons_of_mem o ho', hk', he'⟩
    · rintro (hm | ⟨o', ho', hk', he'⟩)
      · exact Or.inl (Or.inl hm)
      · rcases List.mem_cons.1 ho' with rfl | ho2
        · exact Or.inl (Or.inr ⟨hk'.symm, he'⟩)
        · exact Or.inr ⟨o', ho2, hk', he'⟩

/-- Effect of the item fold on key presence in `results`. -/
theorem itemFold_keys (th : ℚ) :
    ∀ (os : List ((String × Str) × List Span)) (st : AState) (k : String),
      (getA ((os.foldl (processItem th) st).results) k).isSome = true
        ↔ (getA st.results k).isSome = true
          ∨ ∃ o ∈ os, o.1.1 = k ∧ ∃ e ∈ o.2, spanTriggers th e = true := by
  intro os
  induction os with
  | nil => intro st k; simp
  | cons o os ih =>
    intro st k
    rw [List.foldl_cons, ih]
    have hstep := entFold_keys th o.1.1 o.1.2 o.2 st k
    rw [show processItem th st o = o.2.foldl (entityStep th o.1.1 o.1.2) st from rfl,
      hstep]
    constructor
    · rintro ((hm | ⟨hk, he⟩) | ⟨o', ho', hk', he'⟩)
      · exact Or.inl hm
      · exact Or.inr ⟨o, List.mem_cons_self o os, hk.symm, he⟩
      · exact Or.inr ⟨o', List.mem_cons_of_mem o ho', hk', he'⟩
    · rintro (hm | ⟨o', ho', hk', he'⟩)
      · exact Or.inl (Or.inl hm)
      · rcases List.mem_cons.1 ho' with rfl | ho2
        · exact Or.inl (Or.inr ⟨hk'.symm, he'⟩)
        · exact Or.inr ⟨o', ho2, hk', he'⟩

/-- The item fold keeps every stored label list duplicate-free. -/
theorem itemFold_nodup (th : ℚ) :
    ∀ (os : List ((String × Str) × List Span)) (st : AState),
      (∀ k L, getA st.results k = some L → L.Nodup) →
      ∀ k L, getA ((os.foldl (processItem th) st).results) k = some L → L.Nodup := by
  intro os
  induction os with
  | nil => intro st h; exact h
  | cons o os ih =>
    intro st h
    rw [List.foldl_cons]
    exact ih _ (entFold_nodup th o.1.1 o.1.2 o.2 st h)

/-- The item fold preserves the samples-keys-within-results-keys
invariant. -/
theorem itemFold_subset (th : ℚ) :
    ∀ (os : List ((String × Str) × List Span)) (st : AState),
      (∀ k, (getA st.samples k).isSome = true → (getA st.results k).isSome = true) →
      ∀ k, (getA ((os.foldl (processItem th) st).samples) k).isSome = true →
        (getA ((os.foldl (processItem th) st).results) k).isSome = true := by
  intro os
  induction os with
  | nil => intro st h; exact h
  | cons o os ih =>
    intro st h
    rw [List.foldl_cons]
    exact ih _ (entFold_subset th o.1.1 o.1.2 o.2 st h)

/-! ## Claim C1 -/

/-- C1 fails on the code: `redact_request` has no label-catalog check, so a
span with a label outside `ALL_LABELS` whose score meets the threshold is
spliced into the output as `[REDACTED_<label>]`. -/
theorem c1_counterexample :
    (redact_request (fun _ _ => some [[⟨"zzz_not_a_label", 1, 0, 3⟩]])
        ⟨["c"], [[Value.str "abc".data]], 1⟩).1.data
      = [[Value.str "[REDACTED_zzz_not_a_label]".data]]
    ∧ ("zzz_not_a_label" : String) ∉ ALL_LABELS := by
  constructor
  · decide
  · decide

/-- C1 amended: in `analyze`, a label outside the Label Catalog never
appears in the `results` mapping (whatever the classifier returns); the
redact marker, however, carries the span's label without a catalog check,
as the counterexample shows. -/
theorem c1_theorem (c : Classifier) (tbl : String) (columns : List String)
    (data : List (List Value)) (th : ℚ) (col l : String) (ls : List String)
    (hres : getA (process_request c ⟨tbl, columns, data, th⟩).1.results col = some ls)
    (hl : l ∈ ls) : l ∈ ALL_LABELS := by
  by_cases htk : analyzeTasks columns data = []
  · simp [process_request, htk, getA] at hres
  · simp only [process_request, htk, if_false] at hres
    rw [getA_map_vals] at hres
    rcases h2 : getA (engineLoop c Prod.snd (processItem th)
        (enum (chunksOf 256 (analyzeTasks columns data))) (⟨[], []⟩, [])).1.results col
      with _ | L
    · rw [h2] at hres
      exact absurd hres (by simp)
    · rw [h2] at hres
      have hls : ls = sortStrings L := by
        simpa using hres.symm
      have hmem : memLabel (engineLoop c Prod.snd (processItem th)
          (enum (chunksOf 256 (analyzeTasks columns data))) (⟨[], []⟩, [])).1.results col l :=
        ⟨L, h2, mem_sortStrings.1 (hls ▸ hl)⟩
      rw [engineLoop_fst] at hmem
      have hfin := (itemFold_memLabel th _ ⟨[], []⟩ col l).1 hmem
      rcases hfin with hfin | ⟨o, _, _, e, _, ht, hlab⟩
      · rcases hfin with ⟨L', hL', _⟩
        exact absurd hL' (by simp [getA])
      · exact hlab ▸ (spanTriggers_iff.1 ht).2

/-- Witness for C1's amended theorem: a catalog label detected by a
concrete run is certified to be in the catalog. -/
theorem c1_witness :
    (getA (process_request (fun _ _ => some [[⟨"email", 1, 0, 3⟩]])
        ⟨"t", ["c"], [[Value.str "abc".data]], 1⟩).1.results "c" = some ["email"]
      ∧ ("email" : String) ∈ ["email"])
    ∧ ("email" : String) ∈ ALL_LABELS :=
  ⟨⟨by decide, by decide⟩,
   c1_theorem (fun _ _ => some [[⟨"email", 1, 0, 3⟩]]) "t" ["c"]
     [[Value.str "abc".data]] 1 "c" "email" ["email"] (by decide) (by decide)⟩

/-! ## Claim C6 -/

/-- Modelled from the claim, for comparison with the engine: the sample the
spec prescribes for a column is the first 50 characters of the text of the
first outcome (in flattening order) that triggered a detection in that
column. -/
def firstSample (th : ℚ) (os : List ((String × Str) × List Span))
    (col : String) : Option Str :=
  ((os.filter (outcomeHits th col)).head?).map (fun o => o.1.2.take 50)

/-- C6: the sample recorded for a column is exactly the first 50 characters
of the first text (in flattening order: columns in declared order, rows in
declared order within a column, as built by `analyzeTasks`) that triggered
a detection in that column. -/
theorem c6_theorem (c : Classifier) (tbl : String) (columns : List String)
    (data : List (List Value)) (th : ℚ) (col : String) :
    getA (process_request c ⟨tbl, columns, data, th⟩).1.samples col
      = firstSample th (analyzeOutcomes c columns data) col := by
  by_cases htk : analyzeTasks columns data = []
  · have hos : analyzeOutcomes c columns data = [] := by
      rw [analyzeOutcomes, htk]
      rfl
    simp [process_request, htk, getA, hos, firstSample]
  · simp only [process_request, htk, if_false]
    rw [engineLoop_fst, itemFold_samples]
    simp [getA, oOr, firstSample, analyzeOutcomes]

/-! ## Claim C7 -/

/-- Some outcome of the run yielded a passing detection of label `l` in
column `col`. -/
def detectedIn (th : ℚ) (os : List ((String × Str) × List Span))
    (col l : String) : Prop :=
  ∃ o ∈ os, o.1.1 = col ∧ ∃ e ∈ o.2, spanTriggers th e = true ∧ e.label = l

/-- Some outcome of the run yielded a passing detection in column `col`. -/
def columnTriggered (th : ℚ) (os : List ((String × Str) × List Span))
    (col : String) : Prop :=
  ∃ o ∈ os, o.1.1 = col ∧ ∃ e ∈ o.2, spanTriggers th e = true

/-- C7: a column appears in `results` iff a detection occurred for it; its
stored list is ascending (code-point order), duplicate-free, and contains
exactly the detected labels; and every column with a sample also has a
results entry. -/
theorem c7_theorem (c : Classifier) (tbl : String) (columns : List String)
    (data : List (List Value)) (th : ℚ) (col : String) :
    ((∃ ls, getA (process_request c ⟨tbl, columns, data, th⟩).1.results col = some ls)
        ↔ columnTriggered th (analyzeOutcomes c columns data) col)
    ∧ (∀ ls, getA (process_request c ⟨tbl, columns, data, th⟩).1.results col = some ls →
        ls.Pairwise (fun a b => labelLe a b = true) ∧ ls.Nodup
          ∧ ∀ l, l ∈ ls ↔ detectedIn th (analyzeOutcomes c columns data) col l)
    ∧ (∀ s, getA (process_request c ⟨tbl, columns, data, th⟩).1.samples col = some s →
        ∃ ls, getA (process_request c ⟨tbl, columns, data, th⟩).1.results col = some ls) := by
  by_cases htk : analyzeTasks columns data = []
  · have hos : analyzeOutcomes c columns data = [] := by
      rw [analyzeOutcomes, htk]
      rfl
    refine ⟨?_, ?_, ?_⟩
    · simp [process_request, htk, getA, hos, columnTriggered]
    · intro ls hls
      simp [process_request, htk, getA] at hls
    · intro s hs
      simp [process_request, htk, getA] at hs
  · have hraw := engineLoop_fst c Prod.snd (processItem th)
      (enum (chunksOf 256 (analyzeTasks columns data))) (⟨[], []⟩, [])
    refine ⟨?_, ?_, ?_⟩
    · simp only [process_request, htk, if_false]
      rw [getA_map_vals]
      rw [← Option.isSome_iff_exists]
      rw [isSome_oMap]
      rw [hraw]
      rw [show ((⟨[], []⟩, ([] : List ℕ)) : AState × List ℕ).1 = ⟨[], []⟩ from rfl]
      rw [show (columnTriggered th (analyzeOutcomes c columns data) col)
            = (∃ o ∈ analyzeOutcomes c columns data, o.1.1 = col
                ∧ ∃ e ∈ o.2, spanTriggers th e = true) from rfl]
      rw [show analyzeOutcomes c columns data
            = flatOutcomes c Prod.snd (enum (chunksOf 256 (analyzeTasks columns data)))
          from rfl]
      rw [itemFold_keys]
      simp [getA]
    · intro ls hls
      simp only [process_request, htk, if_false] at hls
      rw [getA_map_vals] at hls
      rcases h2 : getA (engineLoop c Prod.snd (processItem th)
          (enum (chunksOf 256 (analyzeTasks columns data))) (⟨[], []⟩, [])).1.results col
        with _ | L
      · rw [h2] at hls
        exact absurd hls (by simp)
      · rw [h2] at hls
        have hls2 : ls = sortStrings L := by simpa using hls.symm
        have hnd : L.Nodup := by
          have := itemFold_nodup th
            (flatOutcomes c Prod.snd (enum (chunksOf 256 (analyzeTasks columns data))))
            ⟨[], []⟩ (by intro k L' hL'; simp [getA] at hL') col L
          apply this
          rw [← hraw]
          exact h2
        refine ⟨hls2 ▸ sortStrings_sorted L, hls2 ▸ sortStrings_nodup hnd, ?_⟩
        intro l
        have hmem : l ∈ ls ↔ memLabel (engineLoop c Prod.snd (processItem th)
            (enum (chunksOf 256 (analyzeTasks columns data))) (⟨[], []⟩, [])).1.results col l := by
          rw [memLabel_iff h2, hls2, mem_sortStrings]
        rw [hmem]
        rw [engineLoop_fst]
        rw [itemFold_memLabel]
        simp [getA, memLabel, detectedIn, analyzeOutcomes]
    · intro s hs
      simp only [process_request, htk, if_false] at hs ⊢
      rw [getA_map_vals, ← Option.isSome_iff_exists, isSome_oMap]
      have hsub := itemFold_subset th
        (flatOutcomes c Prod.snd (enum (chunksOf 256 (analyzeTasks columns data))))
        ⟨[], []⟩ (by intro k hk; simp [getA] at hk) col
      rw [hraw]
      apply hsub
      rw [← hraw]
      rw [hs]
      rfl

/-- Witness for C7 at a concrete run with one detection. -/
theorem c7_witness :
    (getA (process_request (fun _ _ => some [[⟨"email", 1, 0, 3⟩]])
        ⟨"t", ["c"], [[Value.str "abc".data]], 1⟩).1.results "c" = some ["email"]
      ∧ getA (process_request (fun _ _ => some [[⟨"email", 1, 0, 3⟩]])
          ⟨"t", ["c"], [[Value.str "abc".data]], 1⟩).1.samples "c" = some "abc".data)
    ∧ (["email"].Pairwise (fun a b => labelLe a b = true)
        ∧ (["email"] : List String).Nodup
        ∧ ∀ l, l ∈ (["email"] : List String)
            ↔ detectedIn 1 (analyzeOutcomes (fun _ _ => some [[⟨"email", 1, 0, 3⟩]])
                ["c"] [[Value.str "abc".data]]) "c" l)
    ∧ (∃ ls, getA (process_request (fun _ _ => some [[⟨"email", 1, 0, 3⟩]])
        ⟨"t", ["c"], [[Value.str "abc".data]], 1⟩).1.results "c" = some ls) :=
  ⟨⟨by decide, by decide⟩,
   (c7_theorem (fun _ _ => some [[⟨"email", 1, 0, 3⟩]]) "t" ["c"]
     [[Value.str "abc".data]] 1 "c").2.1 ["email"] (by decide),
   (c7_theorem (fun _ _ => some [[⟨"email", 1, 0, 3⟩]]) "t" ["c"]
     [[Value.str "abc".data]] 1 "c").2.2 "abc".data (by decide)⟩

/-! ## Frame lemmas for the redact engine -/

/-- Read a cell of a table, if present. -/
def getCell (d : List (List Value)) (ri ci : ℕ) : Option Value :=
  (d[ri]?).bind (fun row => row[ci]?)

theorem getCell_setCell_ne (d : List (List Value)) (ri' ci' : ℕ) (v : Value)
    (ri ci : ℕ) (h : ¬ (ri' = ri ∧ ci' = ci)) :
    getCell (setCell d ri' ci' v) ri ci = getCell d ri ci := by
  rw [setCell]
  rcases hrow : d[ri']? with _ | row
  · rfl
  · by_cases hr : ri' = ri
    · subst hr
      have hc : ci' ≠ ci := fun hc => h ⟨rfl, hc⟩
      have hlt : ri' < d.length := (List.getElem?_eq_some.1 hrow).1
      rw [getCell, getCell, List.getElem?_set, if_pos rfl, if_pos hlt, hrow]
      simp [List.getElem?_set_ne hc]
    · rw [getCell, getCell, List.getElem?_set_ne hr]

/-- Folding the redact write-back over outcomes that either concern another
cell or carry no spans leaves a cell unchanged. -/
theorem redactFold_frame (th : ℚ) :
    ∀ (os : List ((ℕ × ℕ × Str) × List Span)) (d : List (List Value)) (ri ci : ℕ),
      (∀ o ∈ os, o.2 = [] ∨ ¬ (o.1.1 = ri ∧ o.1.2.1 = ci)) →
      getCell (os.foldl (redactItem th) d) ri ci = getCell d ri ci := by
  intro os
  induction os with
  | nil => intro d ri ci _; rfl
  | cons o os ih =>
    intro d ri ci h
    rw [List.foldl_cons]
    have hrest := fun o' ho' => h o' (List.mem_cons_of_mem o ho')
    rcases h o (List.mem_cons_self o os) with h2 | h2
    · rw [show redactItem th d o = d from by simp [redactItem, h2]]
      exact ih d ri ci hrest
    · by_cases hempty : o.2 = []
      · rw [show redactItem th d o = d from by simp [redactItem, hempty]]
        exact ih d ri ci hrest
      · rw [show redactItem th d o
            = setCell d o.1.1 o.1.2.1 (Value.str (redactCell th o.1.2.2 o.2)) from by
              simp [redactItem, hempty]]
        rw [ih _ ri ci hrest]
        exact getCell_setCell_ne d o.1.1 o.1.2.1 _ ri ci h2

/-- Cells that no non-empty outcome targets are returned exactly as they
appear in the input. -/
theorem redact_frame (c : Classifier) (columns : List String)
    (data : List (List Value)) (th : ℚ) (ri ci : ℕ)
    (h : ∀ o ∈ redactOutcomes c columns data, o.2 = [] ∨ ¬ (o.1.1 = ri ∧ o.1.2.1 = ci)) :
    getCell (redact_request c ⟨columns, data, th⟩).1.data ri ci = getCell data ri ci := by
  by_cases h0 : data = [] ∨ columns = []
  · simp only [redact_request, if_pos h0]
  · by_cases h1 : redactTasks columns data = []
    · simp [redact_request, h0, h1]
    · simp only [redact_request, h0, h1, if_false]
      rw [engineLoop_fst]
      exact redactFold_frame th _ data ri ci h

/-- Membership characterisation of the redact work list. -/
theorem mem_redactTasks {columns : List String} {data : List (List Value)}
    {ri ci : ℕ} {txt : Str} :
    (ri, ci, txt) ∈ redactTasks columns data
      ↔ ∃ v, getCell data ri ci = some v ∧ ci < columns.length ∧ v ≠ Value.null
          ∧ isBlank v.toStr = false ∧ txt = v.toStr := by
  rw [redactTasks, List.mem_flatMap]
  constructor
  · rintro ⟨rp, hrp, hmem⟩
    rw [List.mem_filterMap] at hmem
    rcases hmem with ⟨cp, hcp, hf⟩
    by_cases hcond : cp.1 < columns.length ∧ cp.2 ≠ Value.null ∧ isBlank cp.2.toStr = false
    · rw [if_pos hcond] at hf
      have hinj := Option.some.inj hf
      obtain ⟨h1, h2, h3⟩ : rp.1 = ri ∧ cp.1 = ci ∧ cp.2.toStr = txt := by
        simpa [Prod.ext_iff] using hinj
      have hrow := (mem_enum rp data).1 hrp
      have hcell := (mem_enum cp rp.2).1 hcp
      refine ⟨cp.2, ?_, h2 ▸ hcond.1, hcond.2.1, hcond.2.2, h3.symm⟩
      rw [getCell, ← h1, hrow]
      simpa [h2] using hcell
    · rw [if_neg hcond] at hf
      exact absurd hf (by simp)
  · rintro ⟨v, hv, hci, hnn, hnb, htxt⟩
    rw [getCell] at hv
    rcases hrow : data[ri]? with _ | row
    · rw [hrow] at hv
      exact absurd hv (by simp)
    · rw [hrow] at hv
      have hcell : row[ci]? = some v := by simpa using hv
      refine ⟨(ri, row), (mem_enum _ _).2 (by simpa using hrow), ?_⟩
      rw [List.mem_filterMap]
      refine ⟨(ci, v), (mem_enum _ _).2 (by simpa using hcell), ?_⟩
      rw [if_pos ⟨hci, hnn, hnb⟩]
      simp [htxt]

/-- Membership characterisation of the per-column value lists of the
analyze work list. -/
theorem mem_columnValues {n : ℕ} {data : List (List Value)} {i : ℕ} {txt : Str} :
    txt ∈ columnValues n data i
      ↔ ∃ ri v, getCell data ri i = some v ∧ i < n
          ∧ isBlank (valStrA v) = false ∧ txt = valStrA v := by
  rw [columnValues, List.mem_flatMap]
  constructor
  · rintro ⟨row, hrow, hmem⟩
    rcases hcell : row[i]? with _ | v
    · simp only [hcell] at hmem
      simp at hmem
    · simp only [hcell] at hmem
      by_cases hcond : i < n ∧ isBlank (valStrA v) = false
      · rw [if_pos hcond] at hmem
        have htxt : txt = valStrA v := by simpa using hmem
        rcases List.mem_iff_getElem?.1 hrow with ⟨ri, hri⟩
        refine ⟨ri, v, ?_, hcond.1, hcond.2, htxt⟩
        rw [getCell, hri]
        simpa using hcell
      · rw [if_neg hcond] at hmem
        simp at hmem
  · rintro ⟨ri, v, hv, hin, hnb, htxt⟩
    rw [getCell] at hv
    rcases hrow : data[ri]? with _ | row
    · rw [hrow] at hv
      exact absurd hv (by simp)
    · rw [hrow] at hv
      have hcell : row[i]? = some v := by simpa using hv
      refine ⟨row, List.getElem?_mem hrow, ?_⟩
      simp only [hcell]
      rw [if_pos ⟨hin, hnb⟩]
      simp [htxt]

/-- Membership characterisation of the analyze work list. -/
theorem mem_analyzeTasks {columns : List String} {data : List (List Value)}
    {p : String × Str} :
    p ∈ analyzeTasks columns data
      ↔ ∃ i ri v, i < columns.length ∧ columns[i]? = some p.1
          ∧ getCell data ri i = some v ∧ isBlank (valStrA v) = false
          ∧ p.2 = valStrA v := by
  rw [analyzeTasks, List.mem_flatMap]
  constructor
  · rintro ⟨ip, hip, hmem⟩
    rw [List.mem_map] at hmem
    rcases hmem with ⟨txt, htxt, hp⟩
    rcases mem_columnValues.1 htxt with ⟨ri, v, hv, hin, hnb, htv⟩
    have hcol := (mem_enum ip columns).1 hip
    refine ⟨ip.1, ri, v, hin, ?_, hv, hnb, ?_⟩
    · rw [hcol, ← hp]
    · rw [← hp, ← htv]
  · rintro ⟨i, ri, v, hin, hcol, hv, hnb, htv⟩
    refine ⟨(i, p.1), (mem_enum _ _).2 (by simpa using hcol), ?_⟩
    rw [List.mem_map]
    exact ⟨p.2, mem_columnValues.2 ⟨ri, v, hv, hin, hnb, htv⟩, by simp⟩

/-! ## Claim C2 -/

/-- C2 fails on the code: when the classifier returns a non-empty span list
for a cell whose spans are then all filtered out, line 218 still writes the
string coercion of the cell back, turning the number `42` into the string
`"42"`. -/
theorem c2_counterexample :
    (redact_request (fun _ _ => some [[⟨"name", 0, 0, 1⟩]])
        ⟨["c"], [[Value.int 42]], 1⟩).1.data = [[Value.str "42".data]]
    ∧ Value.str "42".data ≠ Value.int 42 := by
  constructor
  · decide
  · decide

/-- C2 amended: a cell for which every returned span list was empty — in
particular one that never entered the work list — is returned exactly as in
the input, original value and type included; a cell with a non-empty span
list is written back as a string even when every span fails the filter, as
the counterexample shows. -/
theorem c2_theorem (c : Classifier) (columns : List String)
    (data : List (List Value)) (th : ℚ) (ri ci : ℕ)
    (h : ∀ o ∈ redactOutcomes c columns data, o.2 = [] ∨ ¬ (o.1.1 = ri ∧ o.1.2.1 = ci)) :
    getCell (redact_request c ⟨columns, data, th⟩).1.data ri ci = getCell data ri ci :=
  redact_frame c columns data th ri ci h

/-- Witness for C2's amended theorem: a run where one cell is redacted and
the untouched numeric cell keeps its value and type. -/
theorem c2_witness :
    (∀ o ∈ redactOutcomes
        (fun _ texts => some (texts.map (fun t => if t = ['x'] then [⟨"name", 1, 0, 1⟩] else [])))
        ["a", "b"] [[Value.int 42, Value.str ['x']]],
      o.2 = [] ∨ ¬ (o.1.1 = 0 ∧ o.1.2.1 = 0))
    ∧ getCell (redact_request
        (fun _ texts => some (texts.map (fun t => if t = ['x'] then [⟨"name", 1, 0, 1⟩] else [])))
        ⟨["a", "b"], [[Value.int 42, Value.str ['x']]], 1⟩).1.data 0 0
      = getCell [[Value.int 42, Value.str ['x']]] 0 0 :=
  ⟨by decide,
   c2_theorem (fun _ texts => some (texts.map (fun t => if t = ['x'] then [⟨"name", 1, 0, 1⟩] else [])))
     ["a", "b"] [[Value.int 42, Value.str ['x']]] 1 0 0 (by decide)⟩

/-! ## Claim C10 -/

/-- C10: a `null` cell is never the source of a work item in either engine
(in `analyze` its coercion is the empty string, which is blank), and
`redact` returns it as `null` unchanged. -/
theorem c10_theorem (c : Classifier) (columns : List String)
    (data : List (List Value)) (th : ℚ) (ri ci : ℕ)
    (hnull : getCell data ri ci = some Value.null) :
    (valStrA Value.null = [] ∧ isBlank [] = true)
    ∧ (∀ p ∈ analyzeTasks columns data,
        ∃ i ri' v, columns[i]? = some p.1 ∧ getCell data ri' i = some v
          ∧ v ≠ Value.null ∧ p.2 = valStrA v)
    ∧ (∀ t ∈ redactTasks columns data,
        ∃ v, getCell data t.1 t.2.1 = some v ∧ v ≠ Value.null ∧ t.2.2 = v.toStr)
    ∧ getCell (redact_request c ⟨columns, data, th⟩).1.data ri ci = some Value.null := by
  refine ⟨⟨rfl, rfl⟩, ?_, ?_, ?_⟩
  · intro p hp
    rcases mem_analyzeTasks.1 hp with ⟨i, ri', v, _, hcol, hv, hnb, htv⟩
    refine ⟨i, ri', v, hcol, hv, ?_, htv⟩
    rintro rfl
    exact absurd hnb (by simp [valStrA, isBlank])
  · intro t ht
    rcases t with ⟨tri, tci, ttxt⟩
    rcases mem_redactTasks.1 ht with ⟨v, hv, _, hnn, _, htxt⟩
    exact ⟨v, hv, hnn, htxt⟩
  · rw [← hnull]
    apply redact_frame
    intro o ho
    right
    rintro ⟨hri, hci⟩
    have htask := flatOutcomes_task_mem ho
    rcases o with ⟨⟨ori, oci, otxt⟩, oes⟩
    simp only at hri hci
    subst hri hci
    rcases mem_redactTasks.1 htask with ⟨v, hv, _, hnn, _, _⟩
    rw [hnull] at hv
    exact hnn (Option.some.inj hv).symm

/-- Witness for C10 at a concrete table containing a `null` cell. -/
theorem c10_witness :
    getCell [[Value.null, Value.str ['x']]] 0 0 = some Value.null
    ∧ getCell (redact_request emptyStub
        ⟨["a", "b"], [[Value.null, Value.str ['x']]], 1⟩).1.data 0 0
      = some Value.null :=
  ⟨by decide,
   (c10_theorem emptyStub ["a", "b"] [[Value.null, Value.str ['x']]] 1 0 0
     (by decide)).2.2.2⟩

/-! ## Claim C8 -/

theorem enumFrom_take : ∀ (l : List α) (n i : ℕ),
    enumFrom i (l.take n) = (enumFrom i l).take n := by
  intro l
  induction l with
  | nil => intro n i; simp [enumFrom]
  | cons a l ih =>
    intro n i
    cases n with
    | zero => simp [enumFrom]
    | succ n => simp [enumFrom, ih]

theorem enumFrom_drop : ∀ (l : List α) (n i : ℕ),
    enumFrom (i + n) (l.drop n) = (enumFrom i l).drop n := by
  intro l
  induction l with
  | nil => intro n i; simp [enumFrom]
  | cons a l ih =>
    intro n i
    cases n with
    | zero => simp [enumFrom]
    | succ n =>
      show enumFrom (i + (n + 1)) (l.drop n) = (enumFrom (i + 1) l).drop n
      rw [show i + (n + 1) = (i + 1) + n from by omega]
      exact ih n (i + 1)

theorem columnValues_take (n : ℕ) (data : List (List Value)) (i : ℕ) :
    columnValues n (data.map (fun r => r.take n)) i = columnValues n data i := by
  induction data with
  | nil => rfl
  | cons row data ih =>
    rw [columnValues, List.map_cons, List.flatMap_cons, columnValues,
      List.flatMap_cons]
    rw [show List.flatMap (data.map (fun r => r.take n)) _ = columnValues n (data.map (fun r => r.take n)) i from rfl]
    rw [show List.flatMap data _ = columnValues n data i from rfl, ih]
    congr 1
    by_cases hin : i < n
    · rw [List.getElem?_take, if_pos hin]
    · rw [List.getElem?_take, if_neg hin]
      rcases h : row[i]? with _ | v
      · rfl
      · simp only []
        rw [if_neg (fun hc => hin hc.1)]

theorem redactTasks_row_take (columns : List String) (row : List Value) (ri : ℕ) :
    (enum (row.take columns.length)).filterMap (fun cp =>
        if cp.1 < columns.length ∧ cp.2 ≠ Value.null ∧ isBlank cp.2.toStr = false
        then some (ri, cp.1, cp.2.toStr) else none)
      = (enum row).filterMap (fun cp =>
        if cp.1 < columns.length ∧ cp.2 ≠ Value.null ∧ isBlank cp.2.toStr = false
        then some (ri, cp.1, cp.2.toStr) else none) := by
  simp only [enum]
  rw [enumFrom_take]
  conv_rhs => rw [← List.take_append_drop columns.length (enumFrom 0 row)]
  rw [List.filterMap_append]
  have hdrop : ((enumFrom 0 row).drop columns.length).filterMap (fun cp =>
      if cp.1 < columns.length ∧ cp.2 ≠ Value.null ∧ isBlank cp.2.toStr = false
      then some (ri, cp.1, cp.2.toStr) else none) = [] := by
    rw [List.filterMap_eq_nil_iff]
    intro cp hcp
    rw [← enumFrom_drop] at hcp
    have := (mem_enumFrom cp (row.drop columns.length) (0 + columns.length)).1 hcp
    rw [if_neg]
    rintro ⟨hlt, -⟩
    omega
  rw [hdrop, List.append_nil]

theorem redactTasks_take_aux (columns : List String) :
    ∀ (data : List (List Value)) (i : ℕ),
      (enumFrom i (data.map (fun r => r.take columns.length))).flatMap (fun rp =>
          (enum rp.2).filterMap (fun cp =>
            if cp.1 < columns.length ∧ cp.2 ≠ Value.null ∧ isBlank cp.2.toStr = false
            then some (rp.1, cp.1, cp.2.toStr) else none))
        = (enumFrom i data).flatMap (fun rp =>
          (enum rp.2).filterMap (fun cp =>
            if cp.1 < columns.length ∧ cp.2 ≠ Value.null ∧ isBlank cp.2.toStr = false
            then some (rp.1, cp.1, cp.2.toStr) else none)) := by
  intro data
  induction data with
  | nil => intro i; rfl
  | cons row data ih =>
    intro i
    rw [List.map_cons]
    show ((i, row.take columns.length) :: enumFrom (i + 1) _).flatMap _
        = ((i, row) :: enumFrom (i + 1) data).flatMap _
    rw [List.flatMap_cons, List.flatMap_cons, ih (i + 1)]
    congr 1
    exact redactTasks_row_take columns row i

theorem redactTasks_take (columns : List String) (data : List (List Value)) :
    redactTasks columns (data.map (fun r => r.take columns.length))
      = redactTasks columns data := by
  rw [redactTasks, redactTasks]
  exact redactTasks_take_aux columns data 0

theorem analyzeTasks_take (columns : List String) (data : List (List Value)) :
    analyzeTasks columns (data.map (fun r => r.take columns.length))
      = analyzeTasks columns data := by
  rw [analyzeTasks, analyzeTasks]
  apply List.flatMap_congr
  intro p _
  rw [columnValues_take]

/-- C8: both engines are total on ragged rows (the Lean work-list builders
are total functions): cell indices at or beyond `len(columns)` contribute no
work items (truncating every row to the declared column count leaves both
work lists unchanged), and every work item originates from a cell that
actually exists in its row, so a short row contributes nothing for its
missing trailing columns. -/
theorem c8_theorem (columns : List String) (data : List (List Value)) :
    analyzeTasks columns data
        = analyzeTasks columns (data.map (fun r => r.take columns.length))
    ∧ redactTasks columns data
        = redactTasks columns (data.map (fun r => r.take columns.length))
    ∧ (∀ t ∈ redactTasks columns data, t.2.1 < columns.length
        ∧ ∃ v, getCell data t.1 t.2.1 = some v ∧ t.2.2 = v.toStr)
    ∧ (∀ p ∈ analyzeTasks columns data,
        ∃ i ri v, i < columns.length ∧ columns[i]? = some p.1
          ∧ getCell data ri i = some v ∧ p.2 = valStrA v) := by
  refine ⟨(analyzeTasks_take columns data).symm,
    (redactTasks_take columns data).symm, ?_, ?_⟩
  · intro t ht
    rcases t with ⟨ri, ci, txt⟩
    rcases mem_redactTasks.1 ht with ⟨v, hv, hci, _, _, htxt⟩
    exact ⟨hci, v, hv, htxt⟩
  · intro p hp
    rcases mem_analyzeTasks.1 hp with ⟨i, ri, v, hin, hcol, hv, _, htv⟩
    exact ⟨i, ri, v, hin, hcol, hv, htv⟩

/-- Witness for C8 on a concrete ragged table: a two-column table whose
first row has an extra third cell and whose second row is one cell short. -/
theorem c8_witness :
    ((0, 1, ['x']) ∈ redactTasks ["a", "b"]
        [[Value.int 1, Value.str ['x'], Value.str ['e']], [Value.str ['y']]]
      ∧ ("b", ['x']) ∈ analyzeTasks ["a", "b"]
        [[Value.int 1, Value.str ['x'], Value.str ['e']], [Value.str ['y']]])
    ∧ (1 < (["a", "b"] : List String).length
        ∧ ∃ v, getCell [[Value.int 1, Value.str ['x'], Value.str ['e']], [Value.str ['y']]] 0 1
            = some v ∧ (['x'] : Str) = v.toStr)
    ∧ (∃ i ri v, i < (["a", "b"] : List String).length
        ∧ (["a", "b"] : List String)[i]? = some "b"
        ∧ getCell [[Value.int 1, Value.str ['x'], Value.str ['e']], [Value.str ['y']]] ri i
            = some v
        ∧ (['x'] : Str) = valStrA v) :=
  ⟨⟨by decide, by decide⟩,
   ( c8_theorem ["a", "b"] [[Value.int 1, Value.str ['x'], Value.str ['e']], [Value.str ['y']]]).2.2.1
     (0, 1, ['x']) (by decide),
   ( c8_theorem ["a", "b"] [[Value.int 1, Value.str ['x'], Value.str ['e']], [Value.str ['y']]]).2.2.2
     ("b", ['x']) (by decide)⟩

/-! ## Claim C4 -/

/-- The classifier that behaves like `c` except that its `k`-th call
returns an empty span list for every text of the chunk (instead of raising,
as `c` does there). -/
def overrideEmpty (c : Classifier) (k : ℕ) : Classifier :=
  fun j texts => if j = k then some (texts.map (fun _ => [])) else c j texts

theorem foldl_flatOutcomes_override {σ τ : Type} (c : Classifier) (k : ℕ)
    (textOf : τ → Str) (step : σ → τ × List Span → σ)
    (hstep : ∀ s t, step s (t, []) = s)
    (hfail : ∀ texts, c k texts = none) :
    ∀ (l : List (ℕ × List τ)) (s : σ),
      (flatOutcomes c textOf l).foldl step s
        = (flatOutcomes (overrideEmpty c k) textOf l).foldl step s := by
  intro l
  induction l with
  | nil => intro s; rfl
  | cons p l ih =>
    intro s
    by_cases hp : p.1 = k
    · have h1 : c p.1 (p.2.map textOf) = none := by rw [hp]; exact hfail _
      have h2 : overrideEmpty c k p.1 (p.2.map textOf)
          = some ((p.2.map textOf).map (fun _ => [])) := by
        simp [overrideEmpty, hp]
      have hzip : ∀ o ∈ p.2.zip ((p.2.map textOf).map (fun _ => ([] : List Span))),
          o.2 = [] := by
        intro o ho
        rcases o with ⟨t, es⟩
        have := (List.of_mem_zip ho).2
        simp only [List.mem_map] at this
        rcases this with ⟨_, _, hthis⟩
        exact hthis.symm
      simp only [flatOutcomes, List.flatMap_cons, h1, h2, List.foldl_append,
        List.foldl_nil]
      rw [foldl_noop_of_empty step hstep _ s hzip]
      exact ih s
    · have h2 : overrideEmpty c k p.1 (p.2.map textOf) = c p.1 (p.2.map textOf) := by
        simp [overrideEmpty, hp]
      simp only [flatOutcomes, List.flatMap_cons, h2, List.foldl_append]
      rcases h3 : c p.1 (p.2.map textOf) with _ | preds
      · simp only [h3, List.foldl_nil]
        exact ih s
      · simp only [h3]
        exact ih _

theorem engineLoop_errors_mem {τ : Type} {σ : Type} (c : Classifier) (k : ℕ)
    (textOf : τ → Str) (step : σ → τ × List Span → σ) (tasks : List τ)
    (st : σ × List ℕ)
    (hk : k < (chunksOf 256 tasks).length)
    (hfail : ∀ texts, c k texts = none) :
    k ∈ (engineLoop c textOf step (enum (chunksOf 256 tasks)) st).2 := by
  rw [engineLoop_snd]
  refine List.mem_append_right _ (List.mem_filterMap.2 ⟨(k, (chunksOf 256 tasks)[k]), ?_, ?_⟩)
  · exact enum_mem_of_lt hk
  · rw [hfail]

theorem redactTasks_nil_cols (data : List (List Value)) :
    redactTasks [] data = [] := by
  rw [redactTasks]
  apply List.flatMap_eq_nil_iff.mpr
  intro rp _
  rw [List.filterMap_eq_nil_iff]
  intro cp _
  rw [if_neg]
  rintro ⟨hlt, -⟩
  simp at hlt

/-- C4: when the classifier raises on its `k`-th call, both engines behave
exactly as if that chunk had produced zero spans for every item, the chunk
index is recorded on the diagnostic channel (the stderr model) and not in
the protocol response, and all other chunks' detections survive; the
request yields a normal response. -/
theorem c4_theorem (c : Classifier) (k : ℕ) (tbl : String)
    (columns : List String) (data : List (List Value)) (th : ℚ)
    (hfail : ∀ texts, c k texts = none)
    (hmulti : 256 < (analyzeTasks columns data).length) :
    ((process_request c ⟨tbl, columns, data, th⟩).1
        = (process_request (overrideEmpty c k) ⟨tbl, columns, data, th⟩).1)
    ∧ (k < (chunksOf 256 (analyzeTasks columns data)).length →
        k ∈ (process_request c ⟨tbl, columns, data, th⟩).2)
    ∧ ((redact_request c ⟨columns, data, th⟩).1
        = (redact_request (overrideEmpty c k) ⟨columns, data, th⟩).1)
    ∧ (k < (chunksOf 256 (redactTasks columns data)).length →
        k ∈ (redact_request c ⟨columns, data, th⟩).2) := by
  have htk : ¬ (analyzeTasks columns data = []) := by
    intro h
    rw [h] at hmulti
    simp at hmulti
  refine ⟨?_, ?_, ?_, ?_⟩
  · have hmain : (engineLoop c Prod.snd (processItem th)
        (enum (chunksOf 256 (analyzeTasks columns data))) (⟨[], []⟩, [])).1
        = (engineLoop (overrideEmpty c k) Prod.snd (processItem th)
            (enum (chunksOf 256 (analyzeTasks columns data))) (⟨[], []⟩, [])).1 := by
      rw [engineLoop_fst, engineLoop_fst]
      exact foldl_flatOutcomes_override c k Prod.snd (processItem th)
        (processItem_nil th) hfail _ _
    simp only [process_request, htk, if_false]
    rw [hmain]
  · intro hk
    simp only [process_request, htk, if_false]
    exact engineLoop_errors_mem c k Prod.snd (processItem th) _ _ hk hfail
  · by_cases h0 : data = [] ∨ columns = []
    · simp only [redact_request, if_pos h0]
    · by_cases h1 : redactTasks columns data = []
      · simp [redact_request, h0, h1]
      · have hmain : (engineLoop c (fun t => t.2.2) (redactItem th)
            (enum (chunksOf 256 (redactTasks columns data))) (data, [])).1
            = (engineLoop (overrideEmpty c k) (fun t => t.2.2) (redactItem th)
                (enum (chunksOf 256 (redactTasks columns data))) (data, [])).1 := by
          rw [engineLoop_fst, engineLoop_fst]
          exact foldl_flatOutcomes_override c k (fun t => t.2.2) (redactItem th)
            (redactItem_nil th) hfail _ _
        simp only [redact_request, h0, h1, if_false]
        rw [hmain]
  · intro hk
    have h1 : ¬ (redactTasks columns data = []) := by
      intro h
      rw [h] at hk
      simp [chunksOf, chunksOfAux] at hk
    have h0 : ¬ (data = [] ∨ columns = []) := by
      rintro (h0 | h0)
      · exact h1 (by rw [h0]; rfl)
      · exact h1 (by rw [h0]; exact redactTasks_nil_cols data)
    simp only [redact_request, h0, h1, if_false]
    exact engineLoop_errors_mem c k (fun t => t.2.2) (redactItem th) _ _ hk hfail

set_option maxRecDepth 100000 in
/-- Witness for C4: a 257-cell table (two chunks) with a classifier whose
second call always raises. -/
theorem c4_witness :
    ((∀ texts, (fun (j : ℕ) (texts' : List Str) =>
          if j = 1 then (none : Option (List (List Span)))
          else some (texts'.map (fun _ => []))) 1 texts = none)
      ∧ 256 < (analyzeTasks ["c"] (List.replicate 257 [Value.str ['x']])).length
      ∧ 1 < (chunksOf 256 (analyzeTasks ["c"] (List.replicate 257 [Value.str ['x']]))).length
      ∧ 1 < (chunksOf 256 (redactTasks ["c"] (List.replicate 257 [Value.str ['x']]))).length)
    ∧ (process_request (fun j texts' =>
          if j = 1 then none else some (texts'.map (fun _ => [])))
        ⟨"t", ["c"], List.replicate 257 [Value.str ['x']], 1⟩).1
      = (process_request (overrideEmpty (fun j texts' =>
          if j = 1 then none else some (texts'.map (fun _ => []))) 1)
        ⟨"t", ["c"], List.replicate 257 [Value.str ['x']], 1⟩).1
    ∧ 1 ∈ (process_request (fun j texts' =>
          if j = 1 then none else some (texts'.map (fun _ => [])))
        ⟨"t", ["c"], List.replicate 257 [Value.str ['x']], 1⟩).2
    ∧ (redact_request (fun j texts' =>
          if j = 1 then none else some (texts'.map (fun _ => [])))
        ⟨["c"], List.replicate 257 [Value.str ['x']], 1⟩).1
      = (redact_request (overrideEmpty (fun j texts' =>
          if j = 1 then none else some (texts'.map (fun _ => []))) 1)
        ⟨["c"], List.replicate 257 [Value.str ['x']], 1⟩).1
    ∧ 1 ∈ (redact_request (fun j texts' =>
          if j = 1 then none else some (texts'.map (fun _ => [])))
        ⟨["c"], List.replicate 257 [Value.str ['x']], 1⟩).2 := by
  have h := c4_theorem (fun j texts' =>
      if j = 1 then none else some (texts'.map (fun _ => []))) 1 "t" ["c"]
    (List.replicate 257 [Value.str ['x']]) 1 (fun _ => rfl) (by decide)
  exact ⟨⟨fun _ => rfl, by decide, by decide, by decide⟩,
    h.1, h.2.1 (by decide), h.2.2.1, h.2.2.2 (by decide)⟩

/-! ## Claim C3 -/

/-- Modelled from the claim, for comparison with the engine: reading the
spans left to right with a cursor, emit the untouched text between the
cursor and the next span's `start`, then that span's marker, and resume
after its `stop`; offsets are the span's offsets in the original text. -/
def spliceFrom (t : Str) (c : ℕ) : List Span → Str
  | [] => t.drop c
  | sp :: rest => (t.drop c).take (sp.start - c) ++ marker sp.label
      ++ spliceFrom t sp.stop rest

/-- Modelled from the claim: every span's `text[start:stop)` replaced by its
marker, at its original offsets. -/
def specSplice (t : Str) (spans : List Span) : Str := spliceFrom t 0 spans

theorem spliceFrom_take_drop : ∀ (l : List Span) (t : Str) (c k : ℕ),
    c ≤ k → k ≤ t.length → (∀ q ∈ l, k ≤ q.start) →
    (spliceFrom t c l).take (k - c) = (t.drop c).take (k - c)
    ∧ (spliceFrom t c l).drop (k - c) = spliceFrom t k l := by
  intro l t c k hck hkt hq
  cases l with
  | nil =>
    constructor
    · rfl
    · rw [spliceFrom, spliceFrom, List.drop_drop]
      congr 1
      omega
  | cons q rest =>
    have hkq : k ≤ q.start := hq q (List.mem_cons_self q rest)
    have hlen1 : k - c ≤ ((t.drop c).take (q.start - c)).length := by
      rw [List.length_take, List.length_drop]
      omega
    constructor
    · rw [spliceFrom]
      rw [List.take_append_of_le_length (by rw [List.length_append]; omega)]
      rw [List.take_append_of_le_length hlen1]
      rw [List.take_take]
      congr 1
      omega
    · rw [spliceFrom]
      rw [List.drop_append_of_le_length (by rw [List.length_append]; omega)]
      rw [List.drop_append_of_le_length hlen1]
      rw [List.drop_take, List.drop_drop]
      rw [spliceFrom]
      rw [show c + (k - c) = k from by omega]
      rw [show q.start - c - (k - c) = q.start - k from by omega]

/-- Core of C3: folding `applyEntity` over an ascending pairwise
non-overlapping list of passing spans, highest `start` first, equals the
left-to-right splice at original offsets. -/
theorem foldl_applyEntity_spliceFrom (th : ℚ) :
    ∀ (asc : List Span) (t : Str),
      asc.Pairwise (fun a b => a.stop ≤ b.start) →
      (∀ sp ∈ asc, th ≤ sp.score ∧ sp.start < sp.stop ∧ sp.start ≤ t.length) →
      (asc.reverse).foldl (applyEntity th) t = spliceFrom t 0 asc := by
  intro asc
  induction asc with
  | nil => intro t _ _; rfl
  | cons sp rest ih =>
    intro t hpw hval
    rcases List.pairwise_cons.1 hpw with ⟨hsp, hpw'⟩
    obtain ⟨hscore, hlt, hlen⟩ := hval sp (List.mem_cons_self sp rest)
    rw [List.reverse_cons, List.foldl_append]
    simp only [List.foldl_cons, List.foldl_nil]
    rw [ih t hpw' (fun q hq => hval q (List.mem_cons_of_mem sp hq))]
    rw [applyEntity, if_pos ⟨hscore, hlt⟩]
    have hstarts : ∀ q ∈ rest, sp.start ≤ q.start := fun q hq =>
      le_trans (le_of_lt hlt) (hsp q hq)
    have ha : (spliceFrom t 0 rest).take sp.start = t.take sp.start := by
      have h := (spliceFrom_take_drop rest t 0 sp.start (Nat.zero_le _) hlen hstarts).1
      simpa using h
    have hb : (spliceFrom t 0 rest).drop sp.stop = spliceFrom t sp.stop rest := by
      cases rest with
      | nil => rfl
      | cons q rest' =>
        have hq1 : sp.stop ≤ q.start := hsp q (List.mem_cons_self q rest')
        have hq2 : q.start ≤ t.length :=
          (hval q (List.mem_cons_of_mem sp (List.mem_cons_self q rest'))).2.2
        have hstops : ∀ r ∈ q :: rest', sp.stop ≤ r.start := by
          intro r hr
          rcases List.mem_cons.1 hr with hrq | hr'
          · rw [hrq]; exact hq1
          · have hq3 := (hval q (List.mem_cons_of_mem sp (List.mem_cons_self q rest'))).2.1
            have hq4 := (List.pairwise_cons.1 hpw').1 r hr'
            omega
        have h := (spliceFrom_take_drop (q :: rest') t 0 sp.stop (Nat.zero_le _)
          (by omega) hstops).2
        simpa using h
    rw [ha, hb]
    show t.take sp.start ++ marker sp.label ++ spliceFrom t sp.stop rest
        = (t.drop 0).take (sp.start - 0) ++ marker sp.label ++ spliceFrom t sp.stop rest
    simp

/-- A list that is a permutation of a strictly start-descending list and is
itself weakly start-descending equals it. -/
theorem eq_of_perm_sorted_desc : ∀ (l₂ l₁ : List Span),
    l₁.Perm l₂ →
    l₁.Pairwise (fun a b => b.start ≤ a.start) →
    l₂.Pairwise (fun a b => b.start < a.start) →
    l₁ = l₂ := by
  intro l₂
  induction l₂ with
  | nil =>
    intro l₁ hp _ _
    exact hp.eq_nil
  | cons x l₂ ih =>
    intro l₁ hp h1 h2
    cases l₁ with
    | nil =>
      have := hp.length_eq
      simp at this
    | cons y l₁ =>
      have hyx : y = x := by
        by_contra hne
        have hxmem : x ∈ y :: l₁ := hp.symm.subset (List.mem_cons_self x l₂)
        have hymem : y ∈ x :: l₂ := hp.subset (List.mem_cons_self y l₁)
        have hx1 : x ∈ l₁ := by
          rcases List.mem_cons.1 hxmem with h | h
          · exact absurd h.symm hne
          · exact h
        have hy2 : y ∈ l₂ := by
          rcases List.mem_cons.1 hymem with h | h
          · exact absurd h hne
          · exact h
        have ha := (List.pairwise_cons.1 h1).1 x hx1
        have hb := (List.pairwise_cons.1 h2).1 y hy2
        omega
      subst hyx
      rw [ih l₁ hp.cons_inv (List.pairwise_cons.1 h1).2 (List.pairwise_cons.1 h2).2]

/-- On spans with pairwise distinct starts, the engine's stable descending
sort returns the unique start-descending arrangement. -/
theorem sortSpansDesc_eq_reverse (spans asc : List Span)
    (hperm : spans.Perm asc)
    (hpw : asc.Pairwise (fun a b => a.stop ≤ b.start))
    (hstrict : ∀ sp ∈ asc, sp.start < sp.stop) :
    sortSpansDesc spans = asc.reverse := by
  have h1 : asc.Pairwise (fun a b => a.start < b.start) := by
    refine hpw.imp_of_mem ?_
    intro a b ha _ hab
    exact lt_of_lt_of_le (hstrict a ha) hab
  have h2 : (asc.reverse).Pairwise (fun a b => b.start < a.start) :=
    List.pairwise_reverse.mpr h1
  have h3 : (sortSpansDesc spans).Perm asc.reverse :=
    (sortSpansDesc_perm spans).trans (hperm.trans asc.reverse_perm.symm)
  exact eq_of_perm_sorted_desc asc.reverse (sortSpansDesc spans) h3
    (sortSpansDesc_sorted spans) h2

/-- C3: on a cell text with pairwise non-overlapping spans (listed in any
order), each with a passing score and `start < stop` and starting inside
the text, the engine's descending-order replacement equals the
left-to-right splice of every marker at its original offsets. -/
theorem c3_theorem (th : ℚ) (t : Str) (spans asc : List Span)
    (hperm : spans.Perm asc)
    (hpw : asc.Pairwise (fun a b => a.stop ≤ b.start))
    (hval : ∀ sp ∈ asc, th ≤ sp.score ∧ sp.start < sp.stop ∧ sp.start ≤ t.length) :
    redactCell th t spans = specSplice t asc := by
  rw [redactCell,
    sortSpansDesc_eq_reverse spans asc hperm hpw (fun sp h => (hval sp h).2.1)]
  exact foldl_applyEntity_spliceFrom th asc t hpw hval

/-- Witness for C3: the specification's own example, with the two spans
supplied in the wrong order. -/
theorem c3_witness :
    (([⟨"street_address", (1 : ℚ), 14, 26⟩, ⟨"name", (1 : ℚ), 0, 4⟩] : List Span).Perm
        [⟨"name", (1 : ℚ), 0, 4⟩, ⟨"street_address", (1 : ℚ), 14, 26⟩]
      ∧ ([⟨"name", (1 : ℚ), 0, 4⟩, ⟨"street_address", (1 : ℚ), 14, 26⟩] : List Span).Pairwise
          (fun a b => a.stop ≤ b.start)
      ∧ ∀ sp ∈ ([⟨"name", (1 : ℚ), 0, 4⟩, ⟨"street_address", (1 : ℚ), 14, 26⟩] : List Span),
          (1 : ℚ) ≤ sp.score ∧ sp.start < sp.stop
            ∧ sp.start ≤ "John lives at 123 Main St".data.length)
    ∧ redactCell 1 "John lives at 123 Main St".data
        [⟨"street_address", (1 : ℚ), 14, 26⟩, ⟨"name", (1 : ℚ), 0, 4⟩]
      = "[REDACTED_name] lives at [REDACTED_street_address]".data := by
  refine ⟨⟨by decide, by decide, by decide⟩, ?_⟩
  rw [c3_theorem 1 "John lives at 123 Main St".data
    [⟨"street_address", (1 : ℚ), 14, 26⟩, ⟨"name", (1 : ℚ), 0, 4⟩]
    [⟨"name", (1 : ℚ), 0, 4⟩, ⟨"street_address", (1 : ℚ), 14, 26⟩]
    (by decide) (by decide) (by decide)]
  decide

end GlinerPii
